import Mathlib

/-!
Verification of the tablefi tabular data model (src/table/cell.rs,
src/table/slice.rs, src/table/table.rs) against its specification.

The arbitrary-precision decimal type (rust_decimal), the grid storage
(grid crate) and the JSON codec (serde_json) are external dependencies;
the spec treats them as external primitives, and they are modelled here
from the spec's description of their contracts.
-/

namespace Tablefi

/-! ## Characters and digit strings -/

/-- The ten decimal digit characters; the regex classes `\d` and `0-9`
denote exactly these characters. -/
def digitChars : List Char :=
  ['0', '1', '2', '3', '4', '5', '6', '7', '8', '9']

/-- Whether a character is a decimal digit (the regex class `\d`). -/
def isDigitChar (c : Char) : Bool := digitChars.contains c

/-- Numeric value of a digit character. -/
def digitVal (c : Char) : Nat :=
  match c with
  | '0' => 0 | '1' => 1 | '2' => 2 | '3' => 3 | '4' => 4
  | '5' => 5 | '6' => 6 | '7' => 7 | '8' => 8 | '9' => 9
  | _ => 0

/-- Digit character of a value below ten. -/
def digitChar (d : Nat) : Char :=
  match d with
  | 0 => '0' | 1 => '1' | 2 => '2' | 3 => '3' | 4 => '4'
  | 5 => '5' | 6 => '6' | 7 => '7' | 8 => '8' | 9 => '9'
  | _ => '*'

/-- Value of a most-significant-first digit string. -/
def msdVal (l : List Char) : Nat :=
  l.foldl (fun a c => 10 * a + digitVal c) 0

/-- Little-endian base-10 digits, with explicit fuel so the kernel can
evaluate it. -/
def natDigitsAux : Nat → Nat → List Nat
  | 0, _ => []
  | _ + 1, 0 => []
  | fuel + 1, n + 1 => (n + 1) % 10 :: natDigitsAux fuel ((n + 1) / 10)

/-- Little-endian base-10 digits of a natural number (empty for zero). -/
def natDigitsLE (n : Nat) : List Nat := natDigitsAux n n

/-- Most-significant-first digit characters of a positive natural number
(empty for zero). -/
def natDigitChars (n : Nat) : List Char :=
  (natDigitsLE n).reverse.map digitChar

/-- Decimal representation of a natural number, most significant digit
first; `['0']` for zero. -/
def natRepr (n : Nat) : List Char :=
  if n = 0 then ['0'] else natDigitChars n

/-- Left-pad a digit string with zeros to at least the given length. -/
def padTo (k : Nat) (l : List Char) : List Char :=
  List.replicate (k - l.length) '0' ++ l

/-! ## The decimal primitive

Modelled from the spec: the arbitrary-precision decimal number type
(`rust_decimal::Decimal`, an external dependency not part of this
repository) is, per the spec, "an exact decimal value (sign, digits,
scale), no binary-float rounding", offering
add/sub/mul/div/compare/zero-test/parse-from-string/to-canonical-string.
It is modelled as an integer mantissa with a base-10 scale. -/

/-- Modelled from the spec: an exact decimal value — a mantissa `mant`
scaled by `10 ^ scale`, denoting the rational `mant / 10 ^ scale`. -/
structure Dec where
  mant : Int
  scale : Nat
deriving DecidableEq

/-- The rational value denoted by a decimal. -/
def Dec.toRat (d : Dec) : ℚ := (d.mant : ℚ) / (10 : ℚ) ^ d.scale

/-- Modelled from the spec: exact decimal addition — operands are
brought to the larger scale and the mantissas added. -/
def Dec.add (a b : Dec) : Dec :=
  ⟨a.mant * 10 ^ (max a.scale b.scale - a.scale)
     + b.mant * 10 ^ (max a.scale b.scale - b.scale), max a.scale b.scale⟩

/-- Modelled from the spec: exact decimal subtraction. -/
def Dec.sub (a b : Dec) : Dec :=
  ⟨a.mant * 10 ^ (max a.scale b.scale - a.scale)
     - b.mant * 10 ^ (max a.scale b.scale - b.scale), max a.scale b.scale⟩

/-- Modelled from the spec: exact decimal multiplication — mantissas
multiply and scales add. -/
def Dec.mul (a b : Dec) : Dec :=
  ⟨a.mant * b.mant, a.scale + b.scale⟩

/-- Modelled from the spec: decimal division (the divisor is nonzero at
every call site).  The quotient is rendered exactly at the smallest
scale, not below the dividend's scale, at which it is exact, searching
up to 28 extra fractional digits (the dependency's precision); if no
exact scale exists the mantissa is truncated at the last scale searched.
When the quotient is exactly representable the result is exact, and
division by one is the identity. -/
def Dec.div (a b : Dec) : Dec :=
  let num : Int := a.mant * 10 ^ b.scale
  let den : Int := b.mant * 10 ^ a.scale
  let base : Nat := a.scale - b.scale
  match (List.range 29).find? (fun j => decide (den ∣ num * 10 ^ (base + j))) with
  | some j => ⟨num * 10 ^ (base + j) / den, base + j⟩
  | none => ⟨num * 10 ^ (base + 28) / den, base + 28⟩

/-- Modelled from the spec: the decimal's zero test (`is_zero`) — true
exactly when the mantissa is zero. -/
def Dec.isZero (d : Dec) : Bool := d.mant = 0

/-- Whether the exact quotient of two decimals is representable within
the division's scale search window, so that `Dec.div` is exact. -/
def divExact (a b : Dec) : Prop :=
  ∃ j, j < 29 ∧ (b.mant * 10 ^ a.scale) ∣ (a.mant * 10 ^ b.scale) * 10 ^ (a.scale - b.scale + j)

/-- Modelled from the spec: the decimal's total order (`partial_cmp`,
which is total on two numbers) — comparison of the denoted values, by
cross-multiplying the mantissas. -/
def Dec.compareDec (a b : Dec) : Ordering :=
  let x : Int := a.mant * 10 ^ b.scale
  let y : Int := b.mant * 10 ^ a.scale
  if x < y then .lt else if x = y then .eq else .gt

/-- Modelled from the spec: the decimal's canonical string rendering
(`to_string`) — the ungrouped decimal form: optional minus sign, the
mantissa's digits with a decimal point placed `scale` digits from the
right, left-padded with zeros so at least one digit precedes the
point. -/
def Dec.render (d : Dec) : List Char :=
  let sign : List Char := if d.mant < 0 then ['-'] else []
  if d.scale = 0 then sign ++ natRepr d.mant.natAbs
  else
    let ds := padTo (d.scale + 1) (natRepr d.mant.natAbs)
    sign ++ ds.take (ds.length - d.scale) ++ '.' :: ds.drop (ds.length - d.scale)

/-- String form of `Dec.render`. -/
def Dec.toString (d : Dec) : String := String.mk d.render

/-- An optional leading sign: the character dropped, and whether it was
a minus. -/
def splitSign (cs : List Char) : Bool × List Char :=
  match cs with
  | '+' :: t => (false, t)
  | '-' :: t => (true, t)
  | t => (false, t)

/-- The unsigned body of `Decimal::from_str`: integer digits, optionally
a single point followed by fraction digits. -/
def decFromCharsBody (neg : Bool) (body : List Char) : Option Dec :=
  let ip := body.takeWhile (· ≠ '.')
  let rest := body.drop ip.length
  let fp : Option (List Char) :=
    match rest with
    | [] => some []
    | '.' :: t => if t.all isDigitChar then some t else none
    | _ => none
  match fp with
  | none => none
  | some f =>
    if ip.all isDigitChar ∧ (ip ++ f) ≠ [] then
      some ⟨(if neg then -1 else 1) * (msdVal (ip ++ f) : Int), f.length⟩
    else none

/-- Modelled from the spec: the decimal's exact parse from a string
(`Decimal::from_str`) — optional sign, integer digits, optionally a
single point followed by fraction digits; the scale is the number of
fraction digits. -/
def decFromChars (cs : List Char) : Option Dec :=
  decFromCharsBody (splitSign cs).1 (splitSign cs).2

/-! ## The numeric literal pattern

Translation of the classifier regex of `cell.rs`:
`^[+-]?(?:(?:(?:\d{1,3}(?:,\d{3})*|\d+)(?:\.\d+)?)|(?:\.\d+))$` -/

/-- One or more digits (the regex `\d+`). -/
def allDigits (l : List Char) : Bool := !l.isEmpty && l.all isDigitChar

/-- The regex `(?:,\d{3})*`: repeated groups of a comma followed by
exactly three digits. -/
def groupTail : List Char → Bool
  | [] => true
  | ',' :: a :: b :: c :: t =>
    isDigitChar a && isDigitChar b && isDigitChar c && groupTail t
  | _ => false

/-- The regex `\d{1,3}(?:,\d{3})*`: one to three digits then comma
groups of three.  Taking the maximal leading digit run is equivalent to
the regex's full match, since a shorter leading run would have to be
followed by a comma, not a digit. -/
def groupedInt (l : List Char) : Bool :=
  let pre := l.takeWhile isDigitChar
  decide (1 ≤ pre.length) && decide (pre.length ≤ 3) && groupTail (l.drop pre.length)

/-- The regex `\d{1,3}(?:,\d{3})*|\d+`. -/
def intPartOk (l : List Char) : Bool := allDigits l || groupedInt l

/-- The unsigned part of the numeric-literal regex: either an integer
part (grouped or plain) with an optional `.`-fraction, or a bare
`.`-fraction. -/
def numBodyOk (body : List Char) : Bool :=
  match body with
  | '.' :: fp => allDigits fp
  | _ =>
    let ip := body.takeWhile (· ≠ '.')
    match body.drop ip.length with
    | [] => intPartOk ip
    | '.' :: fp => intPartOk ip && allDigits fp
    | _ => false

/-- Whether a literal matches `RE_NUMERIC_PATTERN` of `cell.rs`:
optional sign, then the unsigned body. -/
def matchesNumericPattern (cs : List Char) : Bool :=
  numBodyOk (splitSign cs).2

/-- Characters kept by `RE_STRIP_CHARS` of `cell.rs` (the complement of
`[^0-9+.-]`). -/
def keepChar (c : Char) : Bool :=
  isDigitChar c || c = '+' || c = '.' || c = '-'

/-- The strip step of `cell_from_string`: remove every character other
than digits, sign characters and the decimal point. -/
def stripChars (cs : List Char) : List Char := cs.filter keepChar

/-! ## Cell -/

/-- The divide-by-zero sentinel text of `cell.rs`. -/
def DIV0 : String := "#DIV/0"

/-- A table cell (`Cell` of `cell.rs`): text, or an exact decimal. -/
inductive Cell where
  | Text (s : String)
  | Number (d : Dec)
deriving DecidableEq

/-- `Cell::to_string`: text verbatim; a number renders canonically. -/
def Cell.toText : Cell → String
  | .Text s => s
  | .Number d => d.toString

/-- `Cell::is_text`. -/
def Cell.isTextCell : Cell → Bool
  | .Text _ => true
  | .Number _ => false

/-- `Cell::is_number`. -/
def Cell.isNumberCell (c : Cell) : Bool := !c.isTextCell

/-- `Cell::to_decimal`. -/
def Cell.toDecimal : Cell → Option Dec
  | .Text _ => none
  | .Number d => some d

/-- `cell_from_string` of `cell.rs`: literals matching the numeric
pattern are stripped and parsed as decimals; everything else (including
a matching literal whose stripped form fails to parse) stays text. -/
def cellFromString (s : String) : Cell :=
  if matchesNumericPattern s.data then
    match decFromChars (stripChars s.data) with
    | some d => Cell.Number d
    | none => Cell.Text s
  else Cell.Text s

/-- The spec's "ungrouped, sign-normalized canonical decimal form" of a
numeric literal, as a pure string rewrite: drop a leading sign (keeping
a minus), remove the grouping commas, strip redundant leading zeros of
the integer part (introducing a single `0` if none remains), keep the
fractional part verbatim, and drop the minus sign when every digit is
zero. -/
def specCanonBody (neg : Bool) (body : List Char) : List Char :=
  let ug := body.filter (· ≠ ',')
  let ip := ug.takeWhile (· ≠ '.')
  let rest := ug.drop ip.length
  let ipz := ip.dropWhile (· == '0')
  let ipn := if ipz.isEmpty then ['0'] else ipz
  let allZero := (ug.filter isDigitChar).all (· == '0')
  (if neg && !allZero then ['-'] else []) ++ ipn ++ rest

/-- `specCanonBody` after splitting the sign. -/
def specCanonChars (cs : List Char) : List Char :=
  specCanonBody (splitSign cs).1 (splitSign cs).2

/-- String form of `specCanonChars`. -/
def specCanonicalNumericForm (s : String) : String :=
  String.mk (specCanonChars s.data)

/-! ## Cell arithmetic (`impl Add/Sub/Mul/Div for &Cell` of cell.rs) -/

/-- Binary `+` on cells: both numbers add; otherwise the left operand is
returned unchanged. -/
def cellAdd (l r : Cell) : Cell :=
  match l, r with
  | .Number a, .Number b => .Number (a.add b)
  | _, _ => l

/-- Binary `-` on cells. -/
def cellSub (l r : Cell) : Cell :=
  match l, r with
  | .Number a, .Number b => .Number (a.sub b)
  | _, _ => l

/-- Binary `*` on cells. -/
def cellMul (l r : Cell) : Cell :=
  match l, r with
  | .Number a, .Number b => .Number (a.mul b)
  | _, _ => l

/-- Binary `/` on cells: a zero divisor yields `Cell::from(DIV0)`. -/
def cellDiv (l r : Cell) : Cell :=
  match l, r with
  | .Number a, .Number b =>
    if b.isZero then cellFromString DIV0 else .Number (a.div b)
  | _, _ => l

/-- `Cell::add_value`: adds to a number cell in place; text unchanged. -/
def Cell.add_value (c : Cell) (v : Dec) : Cell :=
  match c with
  | .Number d => .Number (d.add v)
  | t => t

/-- `Cell::sub_value`. -/
def Cell.sub_value (c : Cell) (v : Dec) : Cell :=
  match c with
  | .Number d => .Number (d.sub v)
  | t => t

/-- `Cell::mul_value`. -/
def Cell.mul_value (c : Cell) (v : Dec) : Cell :=
  match c with
  | .Number d => .Number (d.mul v)
  | t => t

/-- `Cell::div_value`: a zero divisor replaces a number cell by the
sentinel; text cells are unchanged. -/
def Cell.div_value (c : Cell) (v : Dec) : Cell :=
  match c with
  | .Number d => if v.isZero then cellFromString DIV0 else .Number (d.div v)
  | t => t

/-- `Cell::is_divide_by_zero`: the rendered form equals the sentinel. -/
def Cell.is_divide_by_zero (c : Cell) : Bool := c.toText == DIV0

/-! ## Cell comparison (`Cell::compare_value` / `Cell::equal_value`) -/

/-- Lexicographic order on character lists, the model of Rust's
`String::partial_cmp` (byte order on UTF-8 agrees with code-point
order). -/
def strCompare : List Char → List Char → Ordering
  | [], [] => .eq
  | [], _ :: _ => .lt
  | _ :: _, [] => .gt
  | a :: as_, b :: bs =>
    if a < b then .lt else if b < a then .gt else strCompare as_ bs

/-- `Cell::compare_value` with the right operand already classified:
number against number by decimal order, text against text
lexicographically, mismatched variants incomparable. -/
def Cell.compare_value (l r : Cell) : Option Ordering :=
  match l, r with
  | .Number a, .Number b => some (a.compareDec b)
  | .Text s1, .Text s2 => some (strCompare s1.data s2.data)
  | _, _ => none

/-- `Cell::compare_value` applied to a string operand: the operand is
classified first (`Into<Cell> for &str`). -/
def Cell.compare_value_str (l : Cell) (s : String) : Option Ordering :=
  l.compare_value (cellFromString s)

/-- `Cell::compare_value` applied to a decimal operand
(`Into<Cell> for &Decimal` wraps it as a number). -/
def Cell.compare_value_dec (l : Cell) (d : Dec) : Option Ordering :=
  l.compare_value (.Number d)

/-- `Cell::equal_value`: comparable with ordering `Equal`. -/
def Cell.equal_value (l r : Cell) : Bool :=
  l.compare_value r == some .eq

/-- `Cell::equal_value` on a string operand. -/
def Cell.equal_value_str (l : Cell) (s : String) : Bool :=
  l.compare_value_str s == some .eq

/-- `Cell::equal_value` on a decimal operand. -/
def Cell.equal_value_dec (l : Cell) (d : Dec) : Bool :=
  l.compare_value_dec d == some .eq

/-! ## Slice (slice.rs) -/

/-- A one-dimensional sequence of cells (`Slice` of slice.rs). -/
structure Slice where
  cells : List Cell
deriving DecidableEq

/-- `Slice::len`. -/
def Slice.len (s : Slice) : Nat := s.cells.length

/-- `Slice::cell`: indexes the underlying vector directly, so an
out-of-range index is a panic, modelled as `Except.error`. -/
def Slice.cellAt (s : Slice) (idx : Nat) : Except String Cell :=
  match s.cells.get? idx with
  | some c => .ok c
  | none => .error "index out of bounds"

/-- `Slice::mut_cell`: `get_mut`, absent when out of range. -/
def Slice.mutCellAt (s : Slice) (idx : Nat) : Option Cell :=
  s.cells.get? idx

/-- Binary `+` on slices (`impl Add for &Slice`): the left slice's cells
are cloned, and for every index also present in the right slice,
`add_value` of the right cell's decimal value (default `0` for a
non-numeric right cell) is applied. -/
def sliceAdd (a b : Slice) : Slice :=
  ⟨a.cells.mapIdx fun i c =>
    match b.cells.get? i with
    | some oc => c.add_value (oc.toDecimal.getD ⟨0, 0⟩)
    | none => c⟩

/-- Binary `-` on slices (default `0`). -/
def sliceSub (a b : Slice) : Slice :=
  ⟨a.cells.mapIdx fun i c =>
    match b.cells.get? i with
    | some oc => c.sub_value (oc.toDecimal.getD ⟨0, 0⟩)
    | none => c⟩

/-- Binary `*` on slices (default `1`). -/
def sliceMul (a b : Slice) : Slice :=
  ⟨a.cells.mapIdx fun i c =>
    match b.cells.get? i with
    | some oc => c.mul_value (oc.toDecimal.getD ⟨1, 0⟩)
    | none => c⟩

/-- Binary `/` on slices (default `1`). -/
def sliceDiv (a b : Slice) : Slice :=
  ⟨a.cells.mapIdx fun i c =>
    match b.cells.get? i with
    | some oc => c.div_value (oc.toDecimal.getD ⟨1, 0⟩)
    | none => c⟩

/-- The spec's description of slice addition: pair cells by index, a
missing right cell is the identity `0`, and each pair combines by the
cell binary-operator rule. -/
def sliceAddSpec (a b : Slice) : Slice :=
  ⟨a.cells.mapIdx fun i c => cellAdd c ((b.cells.get? i).getD (.Number ⟨0, 0⟩))⟩

/-- The spec's description of slice subtraction (identity `0`). -/
def sliceSubSpec (a b : Slice) : Slice :=
  ⟨a.cells.mapIdx fun i c => cellSub c ((b.cells.get? i).getD (.Number ⟨0, 0⟩))⟩

/-- The spec's description of slice multiplication (identity `1`). -/
def sliceMulSpec (a b : Slice) : Slice :=
  ⟨a.cells.mapIdx fun i c => cellMul c ((b.cells.get? i).getD (.Number ⟨1, 0⟩))⟩

/-- The spec's description of slice division (identity `1`). -/
def sliceDivSpec (a b : Slice) : Slice :=
  ⟨a.cells.mapIdx fun i c => cellDiv c ((b.cells.get? i).getD (.Number ⟨1, 0⟩))⟩

/-! ## Table (table.rs)

The storage is the `grid` crate (external): a flat, row-major
`rows × cols` buffer, as the spec's design notes prescribe.  Modelled
from the spec and the dependency's documented contract: `get` is
bounds-checked; `insert_row`/`insert_col` panic — modelled as `none` —
when the index is past the end or when the inserted slice's length
differs from the current column/row count of a nonempty grid;
`remove_row`/`remove_col` return absent when out of range. -/

/-- A two-dimensional table: a flat row-major grid of cells. -/
structure Table where
  rows : Nat
  cols : Nat
  data : List Cell
deriving DecidableEq

/-- The grid invariant: the flat buffer holds exactly `rows * cols`
cells. -/
def Table.wf (t : Table) : Prop := t.data.length = t.rows * t.cols

/-- `Table::new`: the empty table. -/
def Table.new : Table := ⟨0, 0, []⟩

/-- The rows of the grid, as lists of cells (`iter_rows`). -/
def Table.rowsOf (t : Table) : List (List Cell) :=
  (List.range t.rows).map fun i => (t.data.drop (i * t.cols)).take t.cols

/-- `Table::cell`: bounds-checked read of one cell. -/
def Table.cellAt (t : Table) (r c : Nat) : Option Cell :=
  if r < t.rows ∧ c < t.cols then t.data.get? (r * t.cols + c) else none

/-- `Table::mut_cell`: same presence condition as `cell`. -/
def Table.mutCellAt (t : Table) (r c : Nat) : Option Cell :=
  if r < t.rows ∧ c < t.cols then t.data.get? (r * t.cols + c) else none

/-- `Table::row`: detached copy of a row, absent when out of range. -/
def Table.rowAt (t : Table) (r : Nat) : Option Slice :=
  if r < t.rows then some ⟨(t.data.drop (r * t.cols)).take t.cols⟩ else none

/-- `Table::col`: detached copy of a column, absent when out of
range. -/
def Table.colAt (t : Table) (c : Nat) : Option Slice :=
  if c < t.cols then
    some ⟨(List.range t.rows).filterMap fun r => t.data.get? (r * t.cols + c)⟩
  else none

/-- `Table::insert_row` (via `grid::insert_row`): `none` models the
dependency's panic on an index past the end or a row length different
from the column count of a nonempty grid; inserting into an empty grid
sets the column count. -/
def Table.insert_row (t : Table) (idx : Nat) (rw : List Cell) : Option Table :=
  if idx > t.rows then none
  else if t.rows = 0 then some ⟨1, rw.length, rw⟩
  else if rw.length = t.cols then
    some ⟨t.rows + 1, t.cols,
      t.data.take (idx * t.cols) ++ rw ++ t.data.drop (idx * t.cols)⟩
  else none

/-- `Table::push_row`: insertion at the current end. -/
def Table.push_row (t : Table) (rw : List Cell) : Option Table :=
  t.insert_row t.rows rw

/-- `Table::insert_col` (via `grid::insert_col`): the column-wise
analogue of `insert_row`. -/
def Table.insert_col (t : Table) (idx : Nat) (cl : List Cell) : Option Table :=
  if idx > t.cols then none
  else if t.cols = 0 then some ⟨cl.length, 1, cl⟩
  else if cl.length = t.rows then
    some ⟨t.rows, t.cols + 1,
      (t.rowsOf.zip cl).flatMap fun p => p.1.take idx ++ p.2 :: p.1.drop idx⟩
  else none

/-- `Table::push_col`. -/
def Table.push_col (t : Table) (cl : List Cell) : Option Table :=
  t.insert_col t.cols cl

/-- `Table::remove_row`: removed slice and remaining table, absent when
out of range. -/
def Table.remove_row (t : Table) (idx : Nat) : Option (Slice × Table) :=
  if idx < t.rows then
    some (⟨(t.data.drop (idx * t.cols)).take t.cols⟩,
      ⟨t.rows - 1, t.cols,
        t.data.take (idx * t.cols) ++ t.data.drop ((idx + 1) * t.cols)⟩)
  else none

/-- `Table::remove_col`. -/
def Table.remove_col (t : Table) (idx : Nat) : Option (Slice × Table) :=
  if idx < t.cols then
    some (⟨(List.range t.rows).filterMap fun r => t.data.get? (r * t.cols + idx)⟩,
      ⟨t.rows, t.cols - 1, t.rowsOf.flatMap fun rw => rw.take idx ++ rw.drop (idx + 1)⟩)
  else none

/-- `Table::replace_row`: remove (result kept even when absent), then
insert; a panic of the insert — `none` — propagates. -/
def Table.replace_row (t : Table) (idx : Nat) (rw : List Cell) :
    Option (Option Slice × Table) :=
  match t.remove_row idx with
  | some (old, t') => (t'.insert_row idx rw).map fun t'' => (some old, t'')
  | none => (t.insert_row idx rw).map fun t'' => (none, t'')

/-- `Table::replace_col`. -/
def Table.replace_col (t : Table) (idx : Nat) (cl : List Cell) :
    Option (Option Slice × Table) :=
  match t.remove_col idx with
  | some (old, t') => (t'.insert_col idx cl).map fun t'' => (some old, t'')
  | none => (t.insert_col idx cl).map fun t'' => (none, t'')

/-! ## CSV encoding (`Table::write_csv`) -/

/-- `str::replace` of `"` by `""` (RFC 4180 doubling). -/
def escapeQuotes : List Char → List Char
  | [] => []
  | '"' :: t => '"' :: '"' :: escapeQuotes t
  | c :: t => c :: escapeQuotes t

/-- The byte sequence `write_csv` emits for one cell: an enclosing
quote when the text holds a quote, comma or line break; the text with
quotes doubled when it holds a quote, verbatim otherwise. -/
def csvField (s : String) : String :=
  let quotes := s.data.contains '"'
  let escaping := s.data.contains ',' || s.data.contains '\n' || s.data.contains '\r'
  (if quotes || escaping then "\"" else "")
    ++ (if quotes then String.mk (escapeQuotes s.data) else s)
    ++ (if quotes || escaping then "\"" else "")

/-- One row of `write_csv`: cells separated by commas, tracked by the
`first_cell` flag of the source. -/
def writeCsvRow (cells : List Cell) : String :=
  (cells.foldl
    (fun (acc : String × Bool) c =>
      (acc.1 ++ (if acc.2 then "" else ",") ++ csvField c.toText, false))
    ("", true)).1

/-- `Table::write_csv` collected into a string (the writer is a byte
buffer): every row is followed by a single line feed. -/
def Table.writeCsv (t : Table) : String :=
  t.rowsOf.foldl (fun acc r => acc ++ writeCsvRow r ++ "\n") ""

/-- The spec's RFC 4180 field rule: quoted, with inner quotes doubled,
exactly when the text contains a comma, double quote, carriage return
or line feed. -/
def csvFieldSpec (s : String) : String :=
  if s.data.any (fun c => c = ',' || c = '"' || c = '\r' || c = '\n') then
    "\"" ++ String.mk (s.data.flatMap fun c => if c = '"' then ['"', '"'] else [c]) ++ "\""
  else s

/-- Strings joined by commas. -/
def joinComma : List String → String
  | [] => ""
  | [x] => x
  | x :: xs => x ++ "," ++ joinComma xs

/-- Concatenation of a list of strings. -/
def concatAll : List String → String
  | [] => ""
  | x :: xs => x ++ concatAll xs

/-- The spec's description of the CSV encoding: row-major, one row per
line, cells joined by commas, each row terminated by a single line
feed. -/
def Table.csvSpec (t : Table) : String :=
  concatAll (t.rowsOf.map fun r =>
    joinComma (r.map fun c => csvFieldSpec c.toText) ++ "\n")

/-! ## JSON (serde_json, external)

Modelled from the spec: the JSON value tree and its compact rendering
and parsing are the serde_json dependency, not part of this repository.
Objects are omitted from the model: no claim and no encoder of this
crate produces them. -/

/-- A JSON value (numbers kept as their source token). -/
inductive Json where
  | str (s : String)
  | num (raw : String)
  | bool (b : Bool)
  | null
  | arr (elems : List Json)

/-- Hexadecimal digit character. -/
def hexDigit (d : Nat) : Char :=
  match d with
  | 10 => 'a' | 11 => 'b' | 12 => 'c' | 13 => 'd' | 14 => 'e' | 15 => 'f'
  | n => digitChar n

/-- Modelled from the spec: serde_json's string escaping — quote,
backslash and control characters are escaped. -/
def jsonEscapeChar (c : Char) : List Char :=
  if c = '"' then ['\\', '"']
  else if c = '\\' then ['\\', '\\']
  else if c = '\n' then ['\\', 'n']
  else if c = '\r' then ['\\', 'r']
  else if c = '\t' then ['\\', 't']
  else if c.toNat = 8 then ['\\', 'b']
  else if c.toNat = 12 then ['\\', 'f']
  else if c.toNat < 32 then
    ['\\', 'u', '0', '0', hexDigit (c.toNat / 16), hexDigit (c.toNat % 16)]
  else [c]

mutual

/-- Modelled from the spec: serde_json's compact rendering. -/
def Json.render : Json → String
  | .str s => "\"" ++ String.mk (s.data.flatMap jsonEscapeChar) ++ "\""
  | .num r => r
  | .bool b => if b then "true" else "false"
  | .null => "null"
  | .arr l => "[" ++ Json.renderElems l ++ "]"

/-- Array elements joined by commas. -/
def Json.renderElems : List Json → String
  | [] => ""
  | [x] => x.render
  | x :: xs => x.render ++ "," ++ Json.renderElems xs

end

/-- JSON whitespace skipping. -/
def skipWs (cs : List Char) : List Char :=
  cs.dropWhile fun c => c = ' ' || c = '\n' || c = '\r' || c = '\t'

/-- Characters a JSON number token may contain. -/
def numChar (c : Char) : Bool :=
  isDigitChar c || c = '-' || c = '+' || c = '.' || c = 'e' || c = 'E'

/-- Modelled from the spec: the body of a JSON string after the opening
quote, with the standard escapes (`\\u` escapes are outside the model's
subset). -/
def parseStrBody : Nat → List Char → Option (List Char × List Char)
  | 0, _ => none
  | _ + 1, [] => none
  | _ + 1, '"' :: r => some ([], r)
  | fuel + 1, '\\' :: e :: r =>
    let dec : Option Char :=
      if e = '"' then some '"'
      else if e = '\\' then some '\\'
      else if e = '/' then some '/'
      else if e = 'n' then some '\n'
      else if e = 'r' then some '\r'
      else if e = 't' then some '\t'
      else if e = 'b' then some (Char.ofNat 8)
      else if e = 'f' then some (Char.ofNat 12)
      else none
    match dec with
    | some c => (parseStrBody fuel r).map fun p => (c :: p.1, p.2)
    | none => none
  | fuel + 1, c :: r =>
    if c = '\\' then none
    else (parseStrBody fuel r).map fun p => (c :: p.1, p.2)

mutual

/-- Modelled from the spec: a JSON value parser (serde_json's grammar on
the model's subset), with fuel for termination. -/
def parseVal : Nat → List Char → Option (Json × List Char)
  | 0, _ => none
  | fuel + 1, cs =>
    match skipWs cs with
    | '"' :: t => (parseStrBody (fuel + 1) t).map fun p => (Json.str (String.mk p.1), p.2)
    | '[' :: t =>
      (match skipWs t with
       | ']' :: r => some (Json.arr [], r)
       | t' => (parseElems fuel t').map fun p => (Json.arr p.1, p.2))
    | 't' :: 'r' :: 'u' :: 'e' :: r => some (Json.bool true, r)
    | 'f' :: 'a' :: 'l' :: 's' :: 'e' :: r => some (Json.bool false, r)
    | 'n' :: 'u' :: 'l' :: 'l' :: r => some (Json.null, r)
    | c :: t =>
      if isDigitChar c || c = '-' then
        some (Json.num (String.mk (c :: t.takeWhile numChar)), t.dropWhile numChar)
      else none
    | [] => none

/-- The elements of a JSON array after the opening bracket, ending at
the closing bracket. -/
def parseElems : Nat → List Char → Option (List Json × List Char)
  | 0, _ => none
  | fuel + 1, cs =>
    match parseVal fuel cs with
    | none => none
    | some (v, r) =>
      match skipWs r with
      | ']' :: r' => some ([v], r')
      | ',' :: r' => (parseElems fuel r').map fun p => (v :: p.1, p.2)
      | _ => none

end

/-- Modelled from the spec: `serde_json::from_str` to a value — the
whole input must be consumed up to trailing whitespace. -/
def parseJson (s : String) : Option Json :=
  match parseVal (s.length + 1) s.data with
  | some (v, r) => if skipWs r = [] then some v else none
  | none => none

/-- `Cell`'s `Deserialize`: every JSON value coerces to a literal —
strings verbatim, numbers and booleans by rendering, null to the empty
string, arrays re-serialized — and the literal is classified. -/
def cellFromJson : Json → Cell
  | .str s => cellFromString s
  | .num r => cellFromString r
  | .bool b => cellFromString (if b then "true" else "false")
  | .null => cellFromString ""
  | .arr l => cellFromString (Json.render (.arr l))

/-- `Table`'s `Deserialize`: the value must be an array of arrays; each
row's cells are classified and the rows pushed in order (`push_row`, so
a ragged input is the dependency's panic, `none`). -/
def tableFromJson : Json → Option Table
  | .arr rows => do
    let rws ← rows.mapM fun r =>
      match r with
      | .arr cs => some (cs.map cellFromJson)
      | _ => none
    rws.foldlM (fun t rw => t.push_row rw) Table.new
  | _ => none

/-- `Table::try_from(&str)`: parse, then deserialize. -/
def tableFromString (s : String) : Option Table :=
  (parseJson s).bind tableFromJson

/-- `Table`'s `Serialize`: a JSON array of rows, each row an array of
the cells' string representations. -/
def Table.toJson (t : Table) : Json :=
  .arr (t.rowsOf.map fun r => .arr (r.map fun c => .str c.toText))

/-- `Table::to_string`: the compact rendering of the serialized form. -/
def Table.toText (t : Table) : String := t.toJson.render

/-- `Slice`'s `Deserialize` (`Slice::try_from(&str)`): a JSON array of
values, each classified into a cell. -/
def sliceFromString (s : String) : Option Slice :=
  match parseJson s with
  | some (.arr es) => some ⟨es.map cellFromJson⟩
  | _ => none

/-! # Theorems

## Digit toolbox -/

theorem digit_char_cases {c : Char} (h : isDigitChar c = true) :
    c = '0' ∨ c = '1' ∨ c = '2' ∨ c = '3' ∨ c = '4' ∨ c = '5' ∨ c = '6' ∨
      c = '7' ∨ c = '8' ∨ c = '9' := by
  have h' : c ∈ digitChars := by
    simpa [isDigitChar] using h
  simpa [digitChars] using h'

theorem digitChar_digitVal {c : Char} (h : isDigitChar c = true) :
    digitChar (digitVal c) = c := by
  rcases digit_char_cases h with rfl | rfl | rfl | rfl | rfl | rfl | rfl | rfl | rfl | rfl <;> rfl

theorem digitVal_lt_ten (c : Char) : digitVal c < 10 := by
  unfold digitVal
  split <;> omega

theorem digitVal_eq_zero_iff {c : Char} (h : isDigitChar c = true) :
    digitVal c = 0 ↔ c = '0' := by
  rcases digit_char_cases h with rfl | rfl | rfl | rfl | rfl | rfl | rfl | rfl | rfl | rfl <;>
    simp [digitVal]

theorem isDigitChar_digitChar {d : Nat} (h : d < 10) :
    isDigitChar (digitChar d) = true := by
  interval_cases d <;> rfl

theorem digitVal_digitChar {d : Nat} (h : d < 10) :
    digitVal (digitChar d) = d := by
  interval_cases d <;> rfl

theorem digit_ne_comma {c : Char} (h : isDigitChar c = true) : c ≠ ',' := by
  rcases digit_char_cases h with rfl | rfl | rfl | rfl | rfl | rfl | rfl | rfl | rfl | rfl <;> decide

theorem digit_ne_dot {c : Char} (h : isDigitChar c = true) : c ≠ '.' := by
  rcases digit_char_cases h with rfl | rfl | rfl | rfl | rfl | rfl | rfl | rfl | rfl | rfl <;> decide

theorem keepChar_of_digit {c : Char} (h : isDigitChar c = true) : keepChar c = true := by
  simp [keepChar, h]

/-! ## Digit-string values -/

theorem foldl_digit_acc (l : List Char) (a : Nat) :
    l.foldl (fun a c => 10 * a + digitVal c) a = a * 10 ^ l.length + msdVal l := by
  induction l generalizing a with
  | nil => simp [msdVal]
  | cons c t ih =>
    simp only [List.foldl_cons, List.length_cons, msdVal] at *
    rw [ih (10 * a + digitVal c), ih (10 * 0 + digitVal c)]
    ring

theorem msdVal_cons (c : Char) (t : List Char) :
    msdVal (c :: t) = digitVal c * 10 ^ t.length + msdVal t := by
  simp only [msdVal, List.foldl_cons]
  rw [foldl_digit_acc]
  simp [msdVal]

theorem msdVal_append (l1 l2 : List Char) :
    msdVal (l1 ++ l2) = msdVal l1 * 10 ^ l2.length + msdVal l2 := by
  simp only [msdVal, List.foldl_append]
  rw [foldl_digit_acc]
  rfl

theorem msdVal_eq_ofDigits (l : List Char) :
    msdVal l = Nat.ofDigits 10 ((l.map digitVal).reverse) := by
  induction l with
  | nil => rfl
  | cons c t ih =>
    rw [msdVal_cons, ih]
    simp only [List.map_cons, List.reverse_cons, Nat.ofDigits_append, Nat.ofDigits,
      List.length_reverse, List.length_map]
    push_cast
    ring

theorem natDigitsAux_eq (fuel n : Nat) (h : n ≤ fuel) :
    natDigitsAux fuel n = Nat.digits 10 n := by
  induction fuel generalizing n with
  | zero =>
    interval_cases n
    simp [natDigitsAux]
  | succ f ih =>
    cases n with
    | zero => simp [natDigitsAux]
    | succ m =>
      rw [natDigitsAux, ih ((m + 1) / 10) ?_, Nat.digits_def' (by norm_num) (Nat.succ_pos m)]
      have := Nat.div_lt_self (Nat.succ_pos m) (by norm_num : 1 < 10)
      omega

theorem natDigitsLE_eq (n : Nat) : natDigitsLE n = Nat.digits 10 n :=
  natDigitsAux_eq n n le_rfl

theorem natDigitChars_msdVal {l : List Char} (hd : ∀ c ∈ l, isDigitChar c = true)
    (hne : l ≠ []) (hnz : l.head? ≠ some '0') :
    natDigitChars (msdVal l) = l := by
  rw [natDigitChars, natDigitsLE_eq, msdVal_eq_ofDigits,
    Nat.digits_ofDigits 10 (by norm_num) _ ?_ ?_]
  · rw [List.reverse_reverse, List.map_map]
    conv_rhs => rw [← List.map_id l]
    exact List.map_congr_left fun c hc => digitChar_digitVal (hd c hc)
  · intro d hdm
    rw [List.mem_reverse] at hdm
    obtain ⟨c, _, rfl⟩ := List.mem_map.mp hdm
    exact digitVal_lt_ten c
  · intro hne2
    obtain ⟨c, t, rfl⟩ := List.exists_cons_of_ne_nil hne
    intro hzero
    have h3 := List.getLast?_eq_getLast _ hne2
    rw [hzero, List.getLast?_reverse] at h3
    simp only [List.map_cons, List.head?_cons, Option.some_inj] at h3
    have hdc : isDigitChar c = true := hd c (List.mem_cons_self c t)
    have : c = '0' := (digitVal_eq_zero_iff hdc).mp h3
    simp [this] at hnz

theorem msdVal_natRepr (n : Nat) : msdVal (natRepr n) = n := by
  by_cases h : n = 0
  · subst h
    rfl
  · rw [natRepr, if_neg h, natDigitChars, natDigitsLE_eq, msdVal_eq_ofDigits, List.map_map]
    have h2 : (List.map (digitVal ∘ digitChar) ((Nat.digits 10 n).reverse)).reverse
        = List.map (digitVal ∘ digitChar) (Nat.digits 10 n) := by
      rw [List.map_reverse, List.reverse_reverse]
    rw [h2]
    have h3 : (Nat.digits 10 n).map (digitVal ∘ digitChar) = Nat.digits 10 n := by
      conv_rhs => rw [← List.map_id (Nat.digits 10 n)]
      exact List.map_congr_left fun d hdm =>
        digitVal_digitChar (Nat.digits_lt_base (by norm_num) hdm)
    rw [h3, Nat.ofDigits_digits]

theorem natRepr_digits (n : Nat) : ∀ c ∈ natRepr n, isDigitChar c = true := by
  intro c hc
  rw [natRepr] at hc
  by_cases h : n = 0
  · simp [h] at hc
    simp [hc]
    rfl
  · rw [if_neg h, natDigitChars] at hc
    obtain ⟨d, hdm, rfl⟩ := List.mem_map.mp hc
    rw [List.mem_reverse, natDigitsLE_eq] at hdm
    exact isDigitChar_digitChar (Nat.digits_lt_base (by norm_num) hdm)

theorem natRepr_ne_nil (n : Nat) : natRepr n ≠ [] := by
  by_cases h : n = 0
  · simp [natRepr, h]
  · rw [natRepr, if_neg h]
    intro hc
    have := msdVal_natRepr n
    rw [natRepr, if_neg h, hc] at this
    exact h (by simpa [msdVal] using this.symm)

theorem msdVal_eq_zero_iff {l : List Char} (hd : ∀ c ∈ l, isDigitChar c = true) :
    msdVal l = 0 ↔ ∀ c ∈ l, c = '0' := by
  induction l with
  | nil => simp [msdVal]
  | cons c t ih =>
    rw [msdVal_cons]
    have hc : isDigitChar c = true := hd c (List.mem_cons_self c t)
    have ht : ∀ x ∈ t, isDigitChar x = true := fun x hx => hd x (List.mem_cons_of_mem c hx)
    have hpow : 0 < 10 ^ t.length := Nat.pos_pow_of_pos _ (by norm_num)
    constructor
    · intro h
      have h1 : digitVal c = 0 := by
        by_contra hne
        have : 1 ≤ digitVal c := Nat.one_le_iff_ne_zero.mpr hne
        nlinarith
      have h2 : msdVal t = 0 := by omega
      intro x hx
      rcases List.mem_cons.mp hx with rfl | hx'
      · exact (digitVal_eq_zero_iff hc).mp h1
      · exact (ih ht).mp h2 x hx'
    · intro h
      have h1 : c = '0' := h c (List.mem_cons_self c t)
      have h2 : msdVal t = 0 := (ih ht).mpr fun x hx => h x (List.mem_cons_of_mem c hx)
      rw [h2, (digitVal_eq_zero_iff hc).mpr h1]
      ring

/-! ## Leading zeros -/

theorem dropZeros_head (l : List Char) :
    ∀ {x : Char} {t : List Char}, l.dropWhile (· == '0') = x :: t → x ≠ '0' := by
  induction l with
  | nil => intro x t h; simp at h
  | cons c cs ih =>
    intro x t h
    rw [List.dropWhile_cons] at h
    split at h
    · exact ih h
    · rename_i hfalse
      cases h
      simpa using hfalse

theorem msdVal_dropZeros (l : List Char) :
    msdVal (l.dropWhile (· == '0')) = msdVal l := by
  induction l with
  | nil => rfl
  | cons c cs ih =>
    rw [List.dropWhile_cons]
    split
    · rename_i htrue
      have hc : c = '0' := by simpa using htrue
      rw [ih, msdVal_cons, hc]
      simp [digitVal]
    · rfl

theorem dropZeros_eq_nil_iff {l : List Char} :
    l.dropWhile (· == '0') = [] ↔ ∀ c ∈ l, c = '0' := by
  rw [List.dropWhile_eq_nil_iff]
  simp

theorem mem_dropZeros {l : List Char} {c : Char}
    (h : c ∈ l.dropWhile (· == '0')) : c ∈ l :=
  (List.dropWhile_sublist _).subset h

theorem zeros_append_dropZeros (l : List Char) :
    List.replicate (l.length - (l.dropWhile (· == '0')).length) '0'
      ++ l.dropWhile (· == '0') = l := by
  have h1 : l.takeWhile (· == '0') ++ l.dropWhile (· == '0') = l :=
    List.takeWhile_append_dropWhile _ l
  have h2 : l.takeWhile (· == '0') = List.replicate (l.takeWhile (· == '0')).length '0' := by
    apply List.eq_replicate_of_mem
    intro b hb
    simpa using List.mem_takeWhile_imp hb
  have h3 : (l.takeWhile (· == '0')).length + (l.dropWhile (· == '0')).length = l.length := by
    rw [← List.length_append, h1]
  rw [show l.length - (l.dropWhile (· == '0')).length
        = (l.takeWhile (· == '0')).length by omega, ← h2, h1]

theorem dropZeros_append_of_ne_nil {l1 : List Char} (l2 : List Char)
    (h : l1.dropWhile (· == '0') ≠ []) :
    (l1 ++ l2).dropWhile (· == '0') = l1.dropWhile (· == '0') ++ l2 := by
  induction l1 with
  | nil => simp at h
  | cons c cs ih =>
    rw [List.cons_append, List.dropWhile_cons, List.dropWhile_cons]
    rw [List.dropWhile_cons] at h
    split
    · rename_i htrue
      rw [if_pos htrue] at h
      exact ih h
    · rfl

/-! ## Rendering a decimal from its digit strings -/

theorem mk_natAbs (neg : Bool) (n : Nat) :
    ((if neg then -1 else 1) * (n : Int)).natAbs = n := by
  cases neg <;> simp

theorem mk_neg_lt_zero (neg : Bool) (n : Nat) :
    ((if neg then -1 else 1) * (n : Int) < 0) ↔ (neg = true ∧ n ≠ 0) := by
  cases neg
  · simp
  · simp
    omega

theorem render_int (neg : Bool) (uip : List Char)
    (hd : ∀ c ∈ uip, isDigitChar c = true) :
    Dec.render ⟨(if neg then -1 else 1) * (msdVal uip : Int), 0⟩ =
      (if neg = true ∧ msdVal uip ≠ 0 then ['-'] else [])
        ++ (if (uip.dropWhile (· == '0')).isEmpty then ['0']
            else uip.dropWhile (· == '0')) := by
  have hmain : Dec.render ⟨(if neg then -1 else 1) * (msdVal uip : Int), 0⟩
      = (if ((if neg then -1 else 1) * (msdVal uip : Int) < 0) then ['-'] else [])
        ++ natRepr (((if neg then -1 else 1) * (msdVal uip : Int)).natAbs) := rfl
  rw [hmain, mk_natAbs]
  congr 1
  · rcases em (neg = true ∧ msdVal uip ≠ 0) with h | h
    · rw [if_pos ((mk_neg_lt_zero neg (msdVal uip)).mpr h), if_pos h]
    · rw [if_neg (fun hlt => h ((mk_neg_lt_zero neg (msdVal uip)).mp hlt)), if_neg h]
  · by_cases hz : msdVal uip = 0
    · rw [natRepr, if_pos hz]
      have hnil : uip.dropWhile (· == '0') = [] :=
        dropZeros_eq_nil_iff.mpr ((msdVal_eq_zero_iff hd).mp hz)
      simp [hnil]
    · rw [natRepr, if_neg hz]
      have hne : uip.dropWhile (· == '0') ≠ [] := by
        intro hnil
        have := msdVal_dropZeros uip
        rw [hnil] at this
        exact hz (by simpa [msdVal] using this.symm)
      rw [← msdVal_dropZeros uip,
        natDigitChars_msdVal (fun c hc => hd c (mem_dropZeros hc)) hne ?_]
      · simp [List.isEmpty_iff, hne]
      · obtain ⟨x, t, hx⟩ := List.exists_cons_of_ne_nil hne
        rw [hx]
        simp only [List.head?_cons, ne_eq, Option.some_inj]
        exact dropZeros_head uip hx

theorem render_frac (neg : Bool) (uip fp : List Char)
    (hdi : ∀ c ∈ uip, isDigitChar c = true) (hdf : ∀ c ∈ fp, isDigitChar c = true)
    (hfne : fp ≠ []) :
    Dec.render ⟨(if neg then -1 else 1) * (msdVal (uip ++ fp) : Int), fp.length⟩ =
      (if neg = true ∧ msdVal (uip ++ fp) ≠ 0 then ['-'] else [])
        ++ (if (uip.dropWhile (· == '0')).isEmpty then ['0']
            else uip.dropWhile (· == '0'))
        ++ '.' :: fp := by
  have hs : 0 < fp.length := List.length_pos.mpr hfne
  have hmain : Dec.render ⟨(if neg then -1 else 1) * (msdVal (uip ++ fp) : Int), fp.length⟩
      = (if ((if neg then -1 else 1) * (msdVal (uip ++ fp) : Int) < 0) then ['-'] else [])
        ++ (padTo (fp.length + 1) (natRepr (msdVal (uip ++ fp)))).take
            ((padTo (fp.length + 1) (natRepr (msdVal (uip ++ fp)))).length - fp.length)
        ++ '.' :: (padTo (fp.length + 1) (natRepr (msdVal (uip ++ fp)))).drop
            ((padTo (fp.length + 1) (natRepr (msdVal (uip ++ fp)))).length - fp.length) := by
    simp only [Dec.render, mk_natAbs]
    rw [if_neg (by omega : ¬ fp.length = 0)]
  have hsign : (if ((if neg then -1 else 1) * (msdVal (uip ++ fp) : Int) < 0)
        then ['-'] else ([] : List Char))
      = (if neg = true ∧ msdVal (uip ++ fp) ≠ 0 then ['-'] else []) := by
    rcases em (neg = true ∧ msdVal (uip ++ fp) ≠ 0) with h | h
    · rw [if_pos ((mk_neg_lt_zero neg (msdVal (uip ++ fp))).mpr h), if_pos h]
    · rw [if_neg (fun hlt => h ((mk_neg_lt_zero neg (msdVal (uip ++ fp))).mp hlt)), if_neg h]
  rw [hmain, hsign]
  by_cases hz : msdVal (uip ++ fp) = 0
  · -- all digits are zero
    have hall : ∀ c ∈ uip ++ fp, c = '0' :=
      (msdVal_eq_zero_iff (by
        intro c hc
        rcases List.mem_append.mp hc with h | h
        · exact hdi c h
        · exact hdf c h)).mp hz
    have hzu : uip.dropWhile (· == '0') = [] :=
      dropZeros_eq_nil_iff.mpr fun c hc => hall c (List.mem_append.mpr (Or.inl hc))
    have hfp : fp = List.replicate fp.length '0' :=
      List.eq_replicate_of_mem fun c hc => hall c (List.mem_append.mpr (Or.inr hc))
    rw [hz, hzu]
    have hpad : padTo (fp.length + 1) (natRepr 0)
        = List.replicate fp.length '0' ++ ['0'] := by
      simp [padTo, natRepr]
    rw [hpad]
    have hK : (List.replicate fp.length '0' ++ ['0']).length - fp.length = 1 := by
      simp
    rw [hK]
    obtain ⟨m, hm⟩ : ∃ m, fp.length = m + 1 := ⟨fp.length - 1, by omega⟩
    have htake : (List.replicate fp.length '0' ++ ['0']).take 1 = ['0'] := by
      rw [hm, List.replicate_succ]
      rfl
    have hdrop : (List.replicate fp.length '0' ++ ['0']).drop 1 = fp := by
      rw [hm, List.replicate_succ, List.cons_append, List.drop_one, List.tail_cons,
        ← List.replicate_succ', ← hm, ← hfp]
    rw [htake, hdrop]
    simp
  · -- a nonzero digit exists
    rw [natRepr, if_neg hz]
    by_cases hdz : uip.dropWhile (· == '0') = []
    · -- the integer part is all zeros: the value is the fraction's
      have hzu : msdVal uip = 0 :=
        (msdVal_eq_zero_iff hdi).mpr (dropZeros_eq_nil_iff.mp hdz)
      have hval : msdVal (uip ++ fp) = msdVal fp := by
        rw [msdVal_append, hzu]
        ring
      have hfz : msdVal fp ≠ 0 := fun h => hz (by rw [hval, h])
      have hfdz : fp.dropWhile (· == '0') ≠ [] := by
        intro hnil
        exact hfz ((msdVal_eq_zero_iff hdf).mpr (dropZeros_eq_nil_iff.mp hnil))
      have hchars : natDigitChars (msdVal (uip ++ fp)) = fp.dropWhile (· == '0') := by
        rw [hval, ← msdVal_dropZeros fp]
        refine natDigitChars_msdVal (fun c hc => hdf c (mem_dropZeros hc)) hfdz ?_
        obtain ⟨x, t, hx⟩ := List.exists_cons_of_ne_nil hfdz
        rw [hx]
        simp only [List.head?_cons, ne_eq, Option.some_inj]
        exact dropZeros_head fp hx
      have hflen : (fp.dropWhile (· == '0')).length ≤ fp.length :=
        (List.dropWhile_sublist _).length_le
      rw [hchars, hdz]
      have hsplit : padTo (fp.length + 1) (fp.dropWhile (· == '0'))
          = '0' :: (List.replicate (fp.length - (fp.dropWhile (· == '0')).length) '0'
              ++ fp.dropWhile (· == '0')) := by
        rw [padTo, show fp.length + 1 - (fp.dropWhile (· == '0')).length
            = (fp.length - (fp.dropWhile (· == '0')).length) + 1 by omega,
          List.replicate_succ, List.cons_append]
      rw [hsplit]
      have hK : ('0' :: (List.replicate (fp.length - (fp.dropWhile (· == '0')).length) '0'
            ++ fp.dropWhile (· == '0'))).length - fp.length = 1 := by
        simp
        omega
      rw [hK]
      rw [show (1 : Nat) = 0 + 1 from rfl, List.take_succ_cons, List.take_zero,
        List.drop_succ_cons, List.drop_zero, zeros_append_dropZeros fp]
      simp
    · -- the integer part has a nonzero digit
      have hall : (uip ++ fp).dropWhile (· == '0') = uip.dropWhile (· == '0') ++ fp :=
        dropZeros_append_of_ne_nil fp hdz
      have hchars : natDigitChars (msdVal (uip ++ fp))
          = uip.dropWhile (· == '0') ++ fp := by
        rw [← msdVal_dropZeros (uip ++ fp), hall, ← hall]
        refine natDigitChars_msdVal (fun c hc => ?_) ?_ ?_
        · have hc2 := mem_dropZeros hc
          rcases List.mem_append.mp hc2 with h | h
          · exact hdi c h
          · exact hdf c h
        · rw [hall]
          simp [hdz]
        · obtain ⟨x, t, hx⟩ := List.exists_cons_of_ne_nil
            (show (uip ++ fp).dropWhile (· == '0') ≠ [] by rw [hall]; simp [hdz])
          rw [hx]
          simp only [List.head?_cons, ne_eq, Option.some_inj]
          exact dropZeros_head (uip ++ fp) hx
      rw [hchars]
      have hulen : 0 < (uip.dropWhile (· == '0')).length := List.length_pos.mpr hdz
      have hpad : padTo (fp.length + 1) (uip.dropWhile (· == '0') ++ fp)
          = uip.dropWhile (· == '0') ++ fp := by
        rw [padTo, List.length_append,
          show fp.length + 1 - ((uip.dropWhile (· == '0')).length + fp.length) = 0
            by omega]
        rfl
      rw [hpad, List.length_append,
        show (uip.dropWhile (· == '0')).length + fp.length - fp.length
          = (uip.dropWhile (· == '0')).length by omega]
      rw [List.take_left, List.drop_left]
      simp [hdz]

/-! ## Structure of matched literals -/

theorem splitSign_eq (cs : List Char) :
    (∃ t, cs = '+' :: t ∧ splitSign cs = (false, t)) ∨
    (∃ t, cs = '-' :: t ∧ splitSign cs = (true, t)) ∨
    (splitSign cs = (false, cs)) := by
  match cs with
  | [] => right; right; rfl
  | c :: t =>
    by_cases h1 : c = '+'
    · subst h1
      left
      exact ⟨t, rfl, rfl⟩
    by_cases h2 : c = '-'
    · subst h2
      right; left
      exact ⟨t, rfl, rfl⟩
    right; right
    show splitSign (c :: t) = (false, c :: t)
    rw [splitSign.eq_def]
    split
    · rename_i heq
      injection heq with hc _
      exact absurd hc h1
    · rename_i heq
      injection heq with hc _
      exact absurd hc h2
    · rfl

theorem takeWhile_all {p : Char → Bool} {l : List Char}
    (h : ∀ c ∈ l, p c = true) : l.takeWhile p = l := by
  induction l with
  | nil => rfl
  | cons c t ih =>
    rw [List.takeWhile_cons, if_pos (h c (List.mem_cons_self c t)),
      ih fun x hx => h x (List.mem_cons_of_mem c hx)]

theorem takeWhile_append_all {p : Char → Bool} {l1 : List Char} (l2 : List Char)
    (h : ∀ c ∈ l1, p c = true) :
    (l1 ++ l2).takeWhile p = l1 ++ l2.takeWhile p := by
  induction l1 with
  | nil => rfl
  | cons c t ih =>
    rw [List.cons_append, List.takeWhile_cons, if_pos (h c (List.mem_cons_self c t)),
      ih fun x hx => h x (List.mem_cons_of_mem c hx), List.cons_append]

theorem drop_takeWhile_length (p : Char → Bool) (l : List Char) :
    l.drop (l.takeWhile p).length = l.dropWhile p := by
  induction l with
  | nil => rfl
  | cons c t ih =>
    rw [List.takeWhile_cons, List.dropWhile_cons]
    split
    · simp only [List.length_cons, List.drop_succ_cons]
      exact ih
    · rfl

theorem groupTail_chars (l : List Char) (hg : groupTail l = true) :
    ∀ c ∈ l, isDigitChar c = true ∨ c = ',' := by
  induction l using groupTail.induct with
  | case1 => intro c hc; simp at hc
  | case2 a b d t ih =>
    rw [groupTail] at hg
    obtain ⟨⟨⟨ha, hb⟩, hd2⟩, ht⟩ := by simpa only [Bool.and_eq_true] using hg
    intro c hc
    rcases List.mem_cons.mp hc with rfl | hc1
    · exact Or.inr rfl
    rcases List.mem_cons.mp hc1 with rfl | hc2
    · exact Or.inl ha
    rcases List.mem_cons.mp hc2 with rfl | hc3
    · exact Or.inl hb
    rcases List.mem_cons.mp hc3 with rfl | hc4
    · exact Or.inl hd2
    · exact ih ht c hc4
  | case3 t h1 h2 =>
    rw [groupTail.eq_def] at hg
    split at hg
    · exact (h1 rfl).elim
    · rename_i a b d t'
      exact (h2 a b d t' rfl).elim
    · simp at hg

theorem allDigits_chars {l : List Char} (h : allDigits l = true) :
    (∀ c ∈ l, isDigitChar c = true) ∧ l ≠ [] := by
  rw [allDigits, Bool.and_eq_true] at h
  constructor
  · intro c hc
    exact List.all_eq_true.mp h.2 c hc
  · intro hnil
    subst hnil
    simp at h

theorem intPartOk_chars {l : List Char} (h : intPartOk l = true) :
    (∀ c ∈ l, isDigitChar c = true ∨ c = ',') ∧ l.filter (· ≠ ',') ≠ [] := by
  rw [intPartOk, Bool.or_eq_true] at h
  rcases h with h | h
  · obtain ⟨hd, hne⟩ := allDigits_chars h
    refine ⟨fun c hc => Or.inl (hd c hc), ?_⟩
    rw [List.filter_eq_self.mpr fun c hc => by simp [digit_ne_comma (hd c hc)]]
    exact hne
  · simp only [groupedInt, Bool.and_eq_true, decide_eq_true_eq] at h
    obtain ⟨⟨h1, _⟩, h3⟩ := h
    have hsplit : l.takeWhile isDigitChar ++ l.dropWhile isDigitChar = l :=
      List.takeWhile_append_dropWhile _ _
    have hpre : ∀ c ∈ l.takeWhile isDigitChar, isDigitChar c = true :=
      fun c hc => List.mem_takeWhile_imp hc
    rw [drop_takeWhile_length] at h3
    have htail := groupTail_chars _ h3
    constructor
    · intro c hc
      rw [← hsplit] at hc
      rcases List.mem_append.mp hc with hm | hm
      · exact Or.inl (hpre c hm)
      · exact htail c hm
    · intro hnil
      rw [← hsplit, List.filter_append] at hnil
      rw [List.filter_eq_self.mpr fun c hc => by
        simp [digit_ne_comma (hpre c hc)]] at hnil
      rw [(List.append_eq_nil.mp hnil).1] at h1
      simp at h1

theorem stripChars_digits {l : List Char} (h : ∀ c ∈ l, isDigitChar c = true) :
    stripChars l = l :=
  List.filter_eq_self.mpr fun c hc => keepChar_of_digit (h c hc)

theorem stripChars_mixed {l : List Char} (h : ∀ c ∈ l, isDigitChar c = true ∨ c = ',') :
    stripChars l = l.filter (· ≠ ',') := by
  rw [stripChars]
  apply List.filter_congr
  intro c hc
  rcases h c hc with hd | rfl
  · rw [keepChar_of_digit hd]
    simp [digit_ne_comma hd]
  · decide

theorem filter_comma_digits {l : List Char}
    (h : ∀ c ∈ l, isDigitChar c = true ∨ c = ',') :
    ∀ c ∈ l.filter (· ≠ ','), isDigitChar c = true := by
  intro c hc
  have hm := List.mem_of_mem_filter hc
  have hp := List.of_mem_filter hc
  rcases h c hm with hd | rfl
  · exact hd
  · simp at hp

theorem takeWhile_ne_dot_digits {l : List Char}
    (hd : ∀ c ∈ l, isDigitChar c = true) : l.takeWhile (· ≠ '.') = l :=
  takeWhile_all fun c hc => by simp [digit_ne_dot (hd c hc)]

theorem takeWhile_ne_dot_append {l : List Char}
    (hd : ∀ c ∈ l, isDigitChar c = true) (fp : List Char) :
    (l ++ '.' :: fp).takeWhile (· ≠ '.') = l := by
  rw [takeWhile_append_all _ fun c hc => by simp [digit_ne_dot (hd c hc)],
    List.takeWhile_cons]
  simp

theorem filter_ne_comma_digits_eq {l : List Char}
    (hd : ∀ c ∈ l, isDigitChar c = true) : l.filter (· ≠ ',') = l :=
  List.filter_eq_self.mpr fun c hc => by simp [digit_ne_comma (hd c hc)]

theorem filter_isDigit_eq {l : List Char}
    (hd : ∀ c ∈ l, isDigitChar c = true) : l.filter isDigitChar = l :=
  List.filter_eq_self.mpr hd

theorem all_zeros_iff {l : List Char} (hd : ∀ c ∈ l, isDigitChar c = true) :
    l.all (· == '0') = true ↔ msdVal l = 0 := by
  rw [List.all_eq_true, msdVal_eq_zero_iff hd]
  simp

theorem sign_if_eq {neg az : Bool} {n : Nat} (h : az = true ↔ n = 0) :
    (if neg && !az then ['-'] else ([] : List Char))
      = if neg = true ∧ n ≠ 0 then ['-'] else [] := by
  cases neg <;> cases az <;> simp_all

/-! ## The parse of a stripped numeric literal -/

theorem decFromCharsBody_frac (neg : Bool) {uip fp : List Char}
    (hu : ∀ c ∈ uip, isDigitChar c = true) (hf : ∀ c ∈ fp, isDigitChar c = true)
    (hne : uip ≠ [] ∨ fp ≠ []) :
    decFromCharsBody neg (uip ++ '.' :: fp)
      = some ⟨(if neg then -1 else 1) * (msdVal (uip ++ fp) : Int), fp.length⟩ := by
  have hip := takeWhile_ne_dot_append hu fp
  have hrest : (uip ++ '.' :: fp).drop uip.length = '.' :: fp := List.drop_left _ _
  simp only [decFromCharsBody, hip, hrest]
  rw [if_pos (List.all_eq_true.mpr hf)]
  change (if uip.all isDigitChar = true ∧ uip ++ fp ≠ [] then
      some (⟨(if neg then -1 else 1) * (msdVal (uip ++ fp) : Int), fp.length⟩ : Dec)
    else none) = _
  rw [if_pos ⟨List.all_eq_true.mpr hu, by rcases hne with hne | hne <;> simp [hne]⟩]

theorem decFromCharsBody_int (neg : Bool) {uip : List Char}
    (hu : ∀ c ∈ uip, isDigitChar c = true) (hne : uip ≠ []) :
    decFromCharsBody neg uip
      = some ⟨(if neg then -1 else 1) * (msdVal uip : Int), 0⟩ := by
  have hip := takeWhile_ne_dot_digits hu
  simp only [decFromCharsBody, hip, List.drop_length]
  rw [if_pos ⟨List.all_eq_true.mpr hu, by simp [hne]⟩]
  simp

/-! ## The canonical form of a matched literal -/

theorem specCanonBody_frac (neg : Bool) {ip fp : List Char}
    (hmix : ∀ c ∈ ip, isDigitChar c = true ∨ c = ',')
    (hf : ∀ c ∈ fp, isDigitChar c = true) :
    specCanonBody neg (ip ++ '.' :: fp)
      = (if neg = true ∧ msdVal (ip.filter (· ≠ ',') ++ fp) ≠ 0 then ['-'] else [])
        ++ ((if ((ip.filter (· ≠ ',')).dropWhile (· == '0')).isEmpty then ['0']
            else (ip.filter (· ≠ ',')).dropWhile (· == '0'))
        ++ '.' :: fp) := by
  have hug : (ip ++ '.' :: fp).filter (· ≠ ',')
      = ip.filter (· ≠ ',') ++ '.' :: fp := by
    rw [List.filter_append, List.filter_cons]
    rw [if_pos (by decide), filter_ne_comma_digits_eq hf]
  have hud := filter_comma_digits hmix
  have htw := takeWhile_ne_dot_append hud fp
  have hrest : (ip.filter (· ≠ ',') ++ '.' :: fp).drop (ip.filter (· ≠ ',')).length
      = '.' :: fp := List.drop_left _ _
  have hdig : (ip.filter (· ≠ ',') ++ '.' :: fp).filter isDigitChar
      = ip.filter (· ≠ ',') ++ fp := by
    rw [List.filter_append, List.filter_cons, if_neg (by decide),
      filter_isDigit_eq hud, filter_isDigit_eq hf]
  simp only [specCanonBody, hug, htw, hrest, hdig]
  rw [List.append_assoc]
  congr 1
  refine sign_if_eq (all_zeros_iff ?_)
  intro c hc
  rcases List.mem_append.mp hc with hm | hm
  · exact hud c hm
  · exact hf c hm

theorem specCanonBody_int (neg : Bool) {ip : List Char}
    (hmix : ∀ c ∈ ip, isDigitChar c = true ∨ c = ',') :
    specCanonBody neg ip
      = (if neg = true ∧ msdVal (ip.filter (· ≠ ',')) ≠ 0 then ['-'] else [])
        ++ (if ((ip.filter (· ≠ ',')).dropWhile (· == '0')).isEmpty then ['0']
            else (ip.filter (· ≠ ',')).dropWhile (· == '0')) := by
  have hud := filter_comma_digits hmix
  have htw := takeWhile_ne_dot_digits hud
  simp only [specCanonBody, htw, List.drop_length, filter_isDigit_eq hud,
    List.append_nil]
  congr 1
  exact sign_if_eq (all_zeros_iff hud)

theorem numBodyOk_dot (fp : List Char) : numBodyOk ('.' :: fp) = allDigits fp := rfl

theorem numBodyOk_cons {c : Char} (t : List Char) (hc : c ≠ '.') :
    numBodyOk (c :: t)
      = (match (c :: t).drop ((c :: t).takeWhile (· ≠ '.')).length with
         | [] => intPartOk ((c :: t).takeWhile (· ≠ '.'))
         | '.' :: fp => intPartOk ((c :: t).takeWhile (· ≠ '.')) && allDigits fp
         | _ => false) := by
  rw [numBodyOk.eq_def]
  split
  · rename_i heq
    injection heq with h1 _
    exact absurd h1 hc
  · rfl

/-- A literal matching the unsigned body of the numeric pattern strips
to a parseable decimal whose rendering is the spec's canonical form. -/
theorem body_core {body : List Char} (neg : Bool) (h : numBodyOk body = true) :
    ∃ d : Dec, decFromCharsBody neg (stripChars body) = some d ∧
      d.render = specCanonBody neg body := by
  match body with
  | [] => exact absurd h (by decide)
  | c :: t =>
    -- an integer part, with or without a fraction
    by_cases hdot : c = '.'
    · subst hdot
      rw [numBodyOk_dot] at h
      obtain ⟨hdf, hfne⟩ := allDigits_chars h
      have hstrip : stripChars ('.' :: t) = ([] : List Char) ++ '.' :: t := by
        rw [List.nil_append, stripChars, List.filter_cons, if_pos (by decide)]
        rw [show List.filter keepChar t = stripChars t from rfl, stripChars_digits hdf]
      refine ⟨_, by
        rw [hstrip, decFromCharsBody_frac neg (by simp) hdf (Or.inr hfne)], ?_⟩
      have hr := render_frac neg [] t (by simp) hdf hfne
      have hc2 := @specCanonBody_frac neg [] t (by simp) hdf
      rw [hr]
      conv_rhs => rw [show ('.' :: t : List Char) = [] ++ '.' :: t from rfl]
      rw [hc2]
      simp [List.append_assoc]
    rw [numBodyOk_cons t hdot] at h
    generalize hbgen : (c :: t : List Char) = body at *
    split at h
    · -- no fraction
      rename_i heq
      rw [drop_takeWhile_length] at heq
      have hbody : body.takeWhile (· ≠ '.') = body := by
        conv_rhs => rw [← List.takeWhile_append_dropWhile (fun c => decide (c ≠ '.')) body]
        rw [heq, List.append_nil]
      rw [hbody] at h
      obtain ⟨hmix, hune⟩ := intPartOk_chars h
      have hud := filter_comma_digits hmix
      refine ⟨_, by rw [stripChars_mixed hmix, decFromCharsBody_int neg hud hune], ?_⟩
      rw [render_int neg _ hud, specCanonBody_int neg hmix]
    · -- a dot and a fraction
      rename_i fp heq
      rw [drop_takeWhile_length] at heq
      rw [Bool.and_eq_true] at h
      obtain ⟨hip, hfp⟩ := h
      obtain ⟨hdf, hfne⟩ := allDigits_chars hfp
      obtain ⟨hmix, hune⟩ := intPartOk_chars hip
      have hud := filter_comma_digits hmix
      have hbody : body = body.takeWhile (· ≠ '.') ++ '.' :: fp := by
        conv_lhs => rw [← List.takeWhile_append_dropWhile (fun c => decide (c ≠ '.')) body]
        rw [heq]
      have hstrip : stripChars body
          = (body.takeWhile (· ≠ '.')).filter (· ≠ ',') ++ '.' :: fp := by
        conv_lhs => rw [hbody]
        rw [stripChars, List.filter_append, List.filter_cons, if_pos (by decide)]
        rw [show List.filter keepChar (body.takeWhile (· ≠ '.'))
            = stripChars (body.takeWhile (· ≠ '.')) from rfl, stripChars_mixed hmix,
          show List.filter keepChar fp = stripChars fp from rfl, stripChars_digits hdf]
      refine ⟨_, by rw [hstrip, decFromCharsBody_frac neg hud hdf (Or.inl hune)], ?_⟩
      have hr := render_frac neg ((body.takeWhile (· ≠ '.')).filter (· ≠ ',')) fp hud hdf hfne
      have hc := specCanonBody_frac neg hmix hdf
      rw [hr]
      conv_rhs => rw [hbody]
      rw [hc]
      simp [List.append_assoc]
    · simp at h

theorem digit_ne_plus {c : Char} (h : isDigitChar c = true) : c ≠ '+' := by
  rcases digit_char_cases h with rfl | rfl | rfl | rfl | rfl | rfl | rfl | rfl | rfl | rfl <;> decide

theorem digit_ne_minus {c : Char} (h : isDigitChar c = true) : c ≠ '-' := by
  rcases digit_char_cases h with rfl | rfl | rfl | rfl | rfl | rfl | rfl | rfl | rfl | rfl <;> decide

theorem splitSign_no_sign {c : Char} (t : List Char) (h1 : c ≠ '+') (h2 : c ≠ '-') :
    splitSign (c :: t) = (false, c :: t) := by
  rw [splitSign.eq_def]
  split
  · rename_i heq
    injection heq with hc _
    exact absurd hc h1
  · rename_i heq
    injection heq with hc _
    exact absurd hc h2
  · rfl

theorem intPartOk_head {c : Char} {t : List Char} (h : intPartOk (c :: t) = true) :
    isDigitChar c = true := by
  rcases (intPartOk_chars h).1 c (List.mem_cons_self c t) with hd | rfl
  · exact hd
  · exfalso
    rw [intPartOk, Bool.or_eq_true] at h
    rcases h with h | h
    · rw [allDigits] at h
      simp [show isDigitChar ',' = false from by decide] at h
    · simp only [groupedInt, Bool.and_eq_true, decide_eq_true_eq] at h
      rw [List.takeWhile_cons, if_neg (by decide)] at h
      simp at h

theorem numBodyOk_head {c : Char} {t : List Char} (h : numBodyOk (c :: t) = true) :
    c = '.' ∨ isDigitChar c = true := by
  by_cases hdot : c = '.'
  · exact Or.inl hdot
  right
  rw [numBodyOk_cons t hdot] at h
  have htw : (c :: t).takeWhile (· ≠ '.') = c :: t.takeWhile (· ≠ '.') := by
    rw [List.takeWhile_cons, if_pos (by simp [hdot])]
  split at h
  · rw [htw] at h
    exact intPartOk_head h
  · rw [Bool.and_eq_true, htw] at h
    exact intPartOk_head h.1
  · simp at h

/-- C1: classification of a raw text literal.  A literal matching the
numeric pattern strips, parses, and renders as the ungrouped canonical
decimal form; any other literal stays text, unchanged. -/
theorem C1_classification (s : String) :
    (matchesNumericPattern s.data = true →
      ∃ d : Dec,
        decFromChars (stripChars s.data) = some d ∧
        cellFromString s = Cell.Number d ∧
        (cellFromString s).toText = specCanonicalNumericForm s) ∧
    (matchesNumericPattern s.data = true → decFromChars (stripChars s.data) = none →
      cellFromString s = Cell.Text s) ∧
    (matchesNumericPattern s.data = false → cellFromString s = Cell.Text s) := by
  refine ⟨?_, ?_, ?_⟩
  · intro h
    have h' := h
    rw [matchesNumericPattern] at h'
    rcases splitSign_eq s.data with ⟨t, hcs, hsp⟩ | ⟨t, hcs, hsp⟩ | hsp
    · -- a leading plus
      rw [hsp] at h'
      obtain ⟨d, hparse, hrender⟩ := body_core false h'
      have hstrip : stripChars s.data = '+' :: stripChars t := by
        rw [hcs, stripChars, List.filter_cons, if_pos (by decide)]
        rfl
      have hdec : decFromChars (stripChars s.data) = some d := by
        rw [hstrip]
        exact hparse
      refine ⟨d, hdec, ?_, ?_⟩
      · rw [cellFromString, if_pos h, hdec]
      · rw [cellFromString, if_pos h, hdec]
        show String.mk d.render = _
        rw [hrender, specCanonicalNumericForm, specCanonChars, hsp]
    · -- a leading minus
      rw [hsp] at h'
      obtain ⟨d, hparse, hrender⟩ := body_core true h'
      have hstrip : stripChars s.data = '-' :: stripChars t := by
        rw [hcs, stripChars, List.filter_cons, if_pos (by decide)]
        rfl
      have hdec : decFromChars (stripChars s.data) = some d := by
        rw [hstrip]
        exact hparse
      refine ⟨d, hdec, ?_, ?_⟩
      · rw [cellFromString, if_pos h, hdec]
      · rw [cellFromString, if_pos h, hdec]
        show String.mk d.render = _
        rw [hrender, specCanonicalNumericForm, specCanonChars, hsp]
    · -- no sign
      rw [hsp] at h'
      obtain ⟨d, hparse, hrender⟩ := body_core false h'
      obtain ⟨c, t, hdata⟩ : ∃ c t, s.data = c :: t := by
        cases hsd : s.data with
        | nil =>
          rw [hsd] at h'
          exact absurd h' (by decide)
        | cons c t => exact ⟨c, t, rfl⟩
      have h'' := h'
      rw [hdata] at h''
      have hhead := numBodyOk_head h''
      have hkc : keepChar c = true := by
        rcases hhead with rfl | hd
        · decide
        · exact keepChar_of_digit hd
      have hc1 : c ≠ '+' := by
        rcases hhead with rfl | hd
        · decide
        · exact digit_ne_plus hd
      have hc2 : c ≠ '-' := by
        rcases hhead with rfl | hd
        · decide
        · exact digit_ne_minus hd
      have hstrip : stripChars s.data = c :: stripChars t := by
        rw [hdata, stripChars, List.filter_cons, if_pos hkc]
        rfl
      have hdec : decFromChars (stripChars s.data) = some d := by
        rw [hstrip, decFromChars, splitSign_no_sign (stripChars t) hc1 hc2]
        show decFromCharsBody false (c :: stripChars t) = some d
        rw [← hstrip]
        exact hparse
      refine ⟨d, hdec, ?_, ?_⟩
      · rw [cellFromString, if_pos h, hdec]
      · rw [cellFromString, if_pos h, hdec]
        show String.mk d.render = _
        rw [hrender, specCanonicalNumericForm, specCanonChars, hsp]
  · intro h1 h2
    rw [cellFromString, if_pos h1, h2]
  · intro h
    rw [cellFromString, if_neg (by simp [h])]

/-- Witness for C1 at the literals of the repository's tests. -/
theorem C1_classification_witness :
    cellFromString "-12,345,678.901" = Cell.Number ⟨-12345678901, 3⟩ ∧
    (cellFromString "-12,345,678.901").toText = "-12345678.901" ∧
    cellFromString "1234.56.78" = Cell.Text "1234.56.78" := by
  obtain ⟨d, hdec, hcell, htext⟩ :=
    (C1_classification "-12,345,678.901").1 (by decide)
  have hconc : decFromChars (stripChars ("-12,345,678.901" : String).data)
      = some ⟨-12345678901, 3⟩ := by decide
  have hd : d = ⟨-12345678901, 3⟩ := (Option.some.inj (hconc.symm.trans hdec)).symm
  refine ⟨?_, ?_, (C1_classification "1234.56.78").2.2 (by decide)⟩
  · rw [hcell, hd]
  · rw [htext]
    decide

/-! ## Classification inverts rendering (C10) -/

theorem msdVal_zeros_prefix (k : Nat) (l : List Char) :
    msdVal (List.replicate k '0' ++ l) = msdVal l := by
  rw [msdVal_append]
  have hz : msdVal (List.replicate k '0') = 0 :=
    (msdVal_eq_zero_iff fun c hc => by
      rw [List.eq_of_mem_replicate hc]
      rfl).mpr fun c hc => List.eq_of_mem_replicate hc
  rw [hz]
  ring

/-- A canonical signed body classifies as the number it parses to. -/
theorem cellFromString_signed (neg : Bool) {c : Char} {t : List Char} {d : Dec}
    (hnum : numBodyOk (c :: t) = true)
    (hstrip : stripChars (c :: t) = c :: t)
    (hc1 : c ≠ '+') (hc2 : c ≠ '-')
    (hparse : decFromCharsBody neg (c :: t) = some d) :
    cellFromString (String.mk (cond neg ['-'] [] ++ c :: t)) = Cell.Number d := by
  cases neg with
  | false =>
    have hm : matchesNumericPattern (c :: t) = true := by
      rw [matchesNumericPattern, splitSign_no_sign t hc1 hc2]
      exact hnum
    have hd2 : decFromChars (stripChars (c :: t)) = some d := by
      rw [hstrip, decFromChars, splitSign_no_sign t hc1 hc2]
      exact hparse
    show cellFromString (String.mk (c :: t)) = Cell.Number d
    rw [cellFromString]
    rw [if_pos (show matchesNumericPattern (String.mk (c :: t)).data = true from hm)]
    rw [show stripChars (String.mk (c :: t)).data = stripChars (c :: t) from rfl, hd2]
  | true =>
    have hm : matchesNumericPattern ('-' :: c :: t) = true := by
      rw [matchesNumericPattern]
      exact hnum
    have hd2 : decFromChars (stripChars ('-' :: c :: t)) = some d := by
      rw [show stripChars ('-' :: c :: t) = '-' :: stripChars (c :: t) from by
        rw [stripChars, List.filter_cons, if_pos (by decide)]
        rfl, hstrip]
      exact hparse
    show cellFromString (String.mk ('-' :: c :: t)) = Cell.Number d
    rw [cellFromString]
    rw [if_pos (show matchesNumericPattern (String.mk ('-' :: c :: t)).data = true from hm)]
    rw [show stripChars (String.mk ('-' :: c :: t)).data = stripChars ('-' :: c :: t)
      from rfl, hd2]

/-- C10: classification inverts canonical rendering — re-classifying the
canonical string of a number cell restores the cell exactly. -/
theorem C10_render_roundtrip (d : Dec) :
    cellFromString (Cell.toText (Cell.Number d)) = Cell.Number d := by
  obtain ⟨m, s⟩ := d
  set neg := decide (m < 0) with hneg
  have hsign : (if m < 0 then ['-'] else ([] : List Char)) = cond neg ['-'] [] := by
    by_cases h : m < 0
    · rw [if_pos h, hneg, decide_eq_true h]
      rfl
    · rw [if_neg h, hneg, decide_eq_false h]
      rfl
  have hmk : (if neg then (-1 : Int) else 1) * (m.natAbs : Int) = m := by
    by_cases h : m < 0
    · rw [hneg, decide_eq_true h, if_pos rfl]
      omega
    · rw [hneg, decide_eq_false h, if_neg (by simp)]
      omega
  by_cases hs : s = 0
  · subst hs
    have hd := natRepr_digits m.natAbs
    have hne := natRepr_ne_nil m.natAbs
    obtain ⟨c, t, hct⟩ := List.exists_cons_of_ne_nil hne
    have hcd : isDigitChar c = true := hd c (by rw [hct]; exact List.mem_cons_self _ _)
    have hrender : Cell.toText (Cell.Number ⟨m, 0⟩)
        = String.mk (cond neg ['-'] [] ++ c :: t) := by
      show String.mk (Dec.render ⟨m, 0⟩) = _
      rw [show Dec.render ⟨m, 0⟩
          = (if m < 0 then ['-'] else []) ++ natRepr m.natAbs from rfl, hsign, hct]
    rw [hrender]
    have hnum : numBodyOk (c :: t) = true := by
      rw [numBodyOk_cons t (digit_ne_dot hcd), ← hct, takeWhile_ne_dot_digits hd,
        List.drop_length]
      show intPartOk (natRepr m.natAbs) = true
      rw [intPartOk, Bool.or_eq_true]
      left
      rw [allDigits, Bool.and_eq_true]
      exact ⟨by simp [hne], List.all_eq_true.mpr hd⟩
    have hstrip : stripChars (c :: t) = c :: t := by
      rw [← hct]
      exact stripChars_digits hd
    have hparse : decFromCharsBody neg (c :: t) = some ⟨m, 0⟩ := by
      rw [← hct, decFromCharsBody_int neg hd hne, msdVal_natRepr, hmk]
    exact cellFromString_signed neg hnum hstrip (digit_ne_plus hcd) (digit_ne_minus hcd)
      hparse
  · set P := padTo (s + 1) (natRepr m.natAbs) with hP
    have hPd : ∀ x ∈ P, isDigitChar x = true := by
      intro x hx
      rw [hP, padTo] at hx
      rcases List.mem_append.mp hx with hm1 | hm2
      · rw [List.eq_of_mem_replicate hm1]
        rfl
      · exact natRepr_digits _ x hm2
    have hPlen : s + 1 ≤ P.length := by
      rw [hP, padTo, List.length_append, List.length_replicate]
      omega
    set k := P.length - s with hk
    have htlen : (P.take k).length = k := by
      rw [List.length_take]
      omega
    have htne : P.take k ≠ [] := by
      intro hnil
      rw [hnil] at htlen
      simp at htlen
      omega
    have htd : ∀ x ∈ P.take k, isDigitChar x = true :=
      fun x hx => hPd x (List.mem_of_mem_take hx)
    have hdlen : (P.drop k).length = s := by
      rw [List.length_drop]
      omega
    have hdd : ∀ x ∈ P.drop k, isDigitChar x = true :=
      fun x hx => hPd x (List.mem_of_mem_drop hx)
    have hdne : P.drop k ≠ [] := by
      intro hnil
      rw [hnil] at hdlen
      simp at hdlen
      omega
    obtain ⟨c, t, hct⟩ := List.exists_cons_of_ne_nil htne
    have hcd : isDigitChar c = true := htd c (by rw [hct]; exact List.mem_cons_self _ _)
    have hcons : (c :: (t ++ '.' :: P.drop k) : List Char) = P.take k ++ '.' :: P.drop k := by
      rw [← List.cons_append, ← hct]
    have hbody : Dec.render ⟨m, s⟩
        = (if m < 0 then ['-'] else []) ++ P.take k ++ '.' :: P.drop k := by
      simp only [Dec.render]
      rw [if_neg hs, ← hP, ← hk]
    have hrender : Cell.toText (Cell.Number ⟨m, s⟩)
        = String.mk (cond neg ['-'] [] ++ c :: (t ++ '.' :: P.drop k)) := by
      show String.mk (Dec.render ⟨m, s⟩) = _
      rw [hbody, hsign, List.append_assoc, hct, List.cons_append]
    rw [hrender]
    have hnum : numBodyOk (c :: (t ++ '.' :: P.drop k)) = true := by
      rw [numBodyOk_cons (t ++ '.' :: P.drop k) (digit_ne_dot hcd), hcons,
        takeWhile_ne_dot_append htd, List.drop_left]
      show (intPartOk (P.take k) && allDigits (P.drop k)) = true
      rw [Bool.and_eq_true]
      constructor
      · rw [intPartOk, Bool.or_eq_true]
        left
        rw [allDigits, Bool.and_eq_true]
        exact ⟨by simp [htne], List.all_eq_true.mpr htd⟩
      · rw [allDigits, Bool.and_eq_true]
        exact ⟨by simp [hdne], List.all_eq_true.mpr hdd⟩
    have hstrip : stripChars (c :: (t ++ '.' :: P.drop k))
        = c :: (t ++ '.' :: P.drop k) := by
      rw [hcons, stripChars, List.filter_append, List.filter_cons, if_pos (by decide)]
      rw [show List.filter keepChar (P.take k) = stripChars (P.take k) from rfl,
        stripChars_digits htd,
        show List.filter keepChar (P.drop k) = stripChars (P.drop k) from rfl,
        stripChars_digits hdd]
    have hparse : decFromCharsBody neg (c :: (t ++ '.' :: P.drop k)) = some ⟨m, s⟩ := by
      rw [hcons, decFromCharsBody_frac neg htd hdd (Or.inl htne)]
      have hPval : msdVal (P.take k ++ P.drop k) = m.natAbs := by
        rw [List.take_append_drop, hP, padTo, msdVal_zeros_prefix, msdVal_natRepr]
      rw [hPval, hmk, hdlen]
    exact cellFromString_signed neg hnum hstrip (digit_ne_plus hcd) (digit_ne_minus hcd)
      hparse

/-! ## The sentinel (C8) -/

theorem render_chars_class (d : Dec) :
    ∀ c ∈ d.render, c = '-' ∨ c = '.' ∨ isDigitChar c = true := by
  intro c hc
  rw [Dec.render] at hc
  by_cases hs : d.scale = 0
  · rw [if_pos hs] at hc
    rcases List.mem_append.mp hc with hm | hm
    · left
      split at hm
      · simpa using hm
      · simp at hm
    · exact Or.inr (Or.inr (natRepr_digits _ c hm))
  · rw [if_neg hs] at hc
    have hpad : ∀ x ∈ padTo (d.scale + 1) (natRepr d.mant.natAbs),
        isDigitChar x = true := by
      intro x hx
      rw [padTo] at hx
      rcases List.mem_append.mp hx with hm | hm
      · rw [List.eq_of_mem_replicate hm]
        rfl
      · exact natRepr_digits _ x hm
    rcases List.mem_append.mp hc with hm | hm
    · rcases List.mem_append.mp hm with hm2 | hm2
      · left
        split at hm2
        · simpa using hm2
        · simp at hm2
      · exact Or.inr (Or.inr (hpad c (List.mem_of_mem_take hm2)))
    · rcases List.mem_cons.mp hm with rfl | hm2
      · exact Or.inr (Or.inl rfl)
      · exact Or.inr (Or.inr (hpad c (List.mem_of_mem_drop hm2)))

theorem number_not_sentinel (d : Dec) :
    (Cell.Number d).is_divide_by_zero = false := by
  rw [Cell.is_divide_by_zero]
  by_contra h
  have hbeq : ((Cell.Number d).toText == DIV0) = true := by
    cases hb : ((Cell.Number d).toText == DIV0)
    · exact absurd hb h
    · rfl
  have heq : (Cell.Number d).toText = DIV0 := by simpa using hbeq
  have hdata : d.render = ('#' :: ['D', 'I', 'V', '/', '0']) := congrArg String.data heq
  have hcls := render_chars_class d '#' (by rw [hdata]; exact List.mem_cons_self _ _)
  rcases hcls with h1 | h1 | h1
  · exact absurd h1 (by decide)
  · exact absurd h1 (by decide)
  · exact absurd h1 (by decide)

/-- C8: a sentinel cell is text and immune to every in-place numeric
mutator, division by zero included. -/
theorem C8_sentinel_idempotent (c : Cell) (v : Dec)
    (h : c.is_divide_by_zero = true) :
    c = Cell.Text DIV0 ∧
    c.add_value v = Cell.Text DIV0 ∧
    c.sub_value v = Cell.Text DIV0 ∧
    c.mul_value v = Cell.Text DIV0 ∧
    c.div_value v = Cell.Text DIV0 := by
  match c with
  | .Number d =>
    rw [number_not_sentinel d] at h
    exact absurd h (by simp)
  | .Text s =>
    have hs : s = DIV0 := by
      rw [Cell.is_divide_by_zero] at h
      simpa [Cell.toText] using h
    subst hs
    exact ⟨rfl, rfl, rfl, rfl, rfl⟩

/-- Witness for C8 at the sentinel cell, with the divisor zero. -/
theorem C8_sentinel_idempotent_witness :
    (Cell.Text "#DIV/0").div_value ⟨0, 0⟩ = Cell.Text "#DIV/0" ∧
    (Cell.Text "#DIV/0").add_value ⟨5, 1⟩ = Cell.Text "#DIV/0" := by
  have h := C8_sentinel_idempotent (Cell.Text "#DIV/0") ⟨0, 0⟩ (by decide)
  have h2 := C8_sentinel_idempotent (Cell.Text "#DIV/0") ⟨5, 1⟩ (by decide)
  exact ⟨h.2.2.2.2, h2.2.1⟩

/-! ## Exactness of the decimal operations -/

theorem rescale_toRat (m : Int) {s S : Nat} (h : s ≤ S) :
    ((m * 10 ^ (S - s) : Int) : ℚ) / (10 : ℚ) ^ S = (m : ℚ) / (10 : ℚ) ^ s := by
  push_cast
  rw [pow_sub₀ (10 : ℚ) (by norm_num) h]
  have h10 : (10 : ℚ) ^ s ≠ 0 := pow_ne_zero _ (by norm_num)
  have h10S : (10 : ℚ) ^ S ≠ 0 := pow_ne_zero _ (by norm_num)
  field_simp
  ring

theorem Dec.add_toRat (a b : Dec) : (a.add b).toRat = a.toRat + b.toRat := by
  show ((a.mant * 10 ^ (max a.scale b.scale - a.scale)
      + b.mant * 10 ^ (max a.scale b.scale - b.scale) : Int) : ℚ)
      / (10 : ℚ) ^ (max a.scale b.scale) = _
  rw [Int.cast_add, add_div, rescale_toRat a.mant (le_max_left _ _),
    rescale_toRat b.mant (le_max_right _ _)]
  rfl

theorem Dec.sub_toRat (a b : Dec) : (a.sub b).toRat = a.toRat - b.toRat := by
  show ((a.mant * 10 ^ (max a.scale b.scale - a.scale)
      - b.mant * 10 ^ (max a.scale b.scale - b.scale) : Int) : ℚ)
      / (10 : ℚ) ^ (max a.scale b.scale) = _
  rw [Int.cast_sub, sub_div, rescale_toRat a.mant (le_max_left _ _),
    rescale_toRat b.mant (le_max_right _ _)]
  rfl

theorem Dec.mul_toRat (a b : Dec) : (a.mul b).toRat = a.toRat * b.toRat := by
  show ((a.mant * b.mant : Int) : ℚ) / (10 : ℚ) ^ (a.scale + b.scale) = _
  rw [Int.cast_mul, pow_add, ← div_mul_div_comm]
  rfl

theorem Dec.div_toRat (a b : Dec) (hb : b.mant ≠ 0) (h : divExact a b) :
    (a.div b).toRat = a.toRat / b.toRat := by
  obtain ⟨j, hj, hdvd⟩ := h
  have hfind : ((List.range 29).find? fun j =>
      decide ((b.mant * 10 ^ a.scale)
        ∣ (a.mant * 10 ^ b.scale) * 10 ^ (a.scale - b.scale + j))).isSome := by
    rw [List.find?_isSome]
    exact ⟨j, List.mem_range.mpr hj, decide_eq_true hdvd⟩
  rw [Dec.div]
  match hf : (List.range 29).find? fun j =>
      decide ((b.mant * 10 ^ a.scale)
        ∣ (a.mant * 10 ^ b.scale) * 10 ^ (a.scale - b.scale + j)) with
  | none =>
    rw [hf] at hfind
    simp at hfind
  | some j0 =>
    have hp := List.find?_some hf
    have hdvd0 : (b.mant * 10 ^ a.scale)
        ∣ (a.mant * 10 ^ b.scale) * 10 ^ (a.scale - b.scale + j0) :=
      of_decide_eq_true hp
    have hden : (b.mant * 10 ^ a.scale : Int) ≠ 0 := by
      intro h0
      rcases mul_eq_zero.mp h0 with h1 | h1
      · exact hb h1
      · exact absurd h1 (pow_ne_zero _ (by norm_num))
    show ((((a.mant * 10 ^ b.scale) * 10 ^ (a.scale - b.scale + j0))
        / (b.mant * 10 ^ a.scale) : Int) : ℚ)
        / (10 : ℚ) ^ (a.scale - b.scale + j0) = _
    rw [Int.cast_div_charZero hdvd0]
    rw [Dec.toRat, Dec.toRat]
    have hbq : ((b.mant : ℚ)) ≠ 0 := Int.cast_ne_zero.mpr hb
    have h1 : (10 : ℚ) ^ a.scale ≠ 0 := pow_ne_zero _ (by norm_num)
    have h2 : (10 : ℚ) ^ b.scale ≠ 0 := pow_ne_zero _ (by norm_num)
    have h3 : (10 : ℚ) ^ (a.scale - b.scale + j0) ≠ 0 := pow_ne_zero _ (by norm_num)
    have hdenq : ((b.mant * 10 ^ a.scale : Int) : ℚ) ≠ 0 := by
      push_cast
      exact mul_ne_zero hbq h1
    push_cast
    field_simp
    ring

/-- The sentinel literal classifies as text. -/
theorem cellFromString_DIV0 : cellFromString DIV0 = Cell.Text DIV0 := by decide

/-- C2: cell binary operators — two numbers give the exact decimal
result, division by a zero-valued number gives the sentinel, and a text
operand on either side passes the left operand through unchanged. -/
theorem C2_cell_binary_ops :
    (∀ a b : Dec,
      cellAdd (.Number a) (.Number b) = .Number (a.add b) ∧
      (a.add b).toRat = a.toRat + b.toRat ∧
      cellSub (.Number a) (.Number b) = .Number (a.sub b) ∧
      (a.sub b).toRat = a.toRat - b.toRat ∧
      cellMul (.Number a) (.Number b) = .Number (a.mul b) ∧
      (a.mul b).toRat = a.toRat * b.toRat ∧
      (b.mant = 0 → cellDiv (.Number a) (.Number b) = .Text DIV0) ∧
      (b.mant ≠ 0 → cellDiv (.Number a) (.Number b) = .Number (a.div b)) ∧
      (b.mant ≠ 0 → divExact a b → (a.div b).toRat = a.toRat / b.toRat)) ∧
    (∀ (l : Cell) (s : String),
      cellAdd l (.Text s) = l ∧ cellSub l (.Text s) = l ∧
      cellMul l (.Text s) = l ∧ cellDiv l (.Text s) = l) ∧
    (∀ (s : String) (r : Cell),
      cellAdd (.Text s) r = .Text s ∧ cellSub (.Text s) r = .Text s ∧
      cellMul (.Text s) r = .Text s ∧ cellDiv (.Text s) r = .Text s) := by
  refine ⟨fun a b => ⟨rfl, Dec.add_toRat a b, rfl, Dec.sub_toRat a b, rfl,
    Dec.mul_toRat a b, ?_, ?_, fun hb he => Dec.div_toRat a b hb he⟩, ?_, ?_⟩
  · intro hz
    rw [cellDiv, if_pos (by simp [Dec.isZero, hz]), cellFromString_DIV0]
  · intro hb
    rw [cellDiv, if_neg (by simp [Dec.isZero, hb])]
  · intro l s
    cases l <;> exact ⟨rfl, rfl, rfl, rfl⟩
  · intro s r
    cases r <;> exact ⟨rfl, rfl, rfl, rfl⟩

/-- Witness for C2: division by a zero-valued number yields the
sentinel; an exact division is value-exact. -/
theorem C2_cell_binary_ops_witness :
    cellDiv (.Number ⟨123456, 3⟩) (.Number ⟨0, 2⟩) = .Text DIV0 ∧
    cellDiv (.Number ⟨1, 0⟩) (.Number ⟨2, 0⟩) = .Number (Dec.div ⟨1, 0⟩ ⟨2, 0⟩) ∧
    (Dec.div ⟨1, 0⟩ ⟨2, 0⟩).toRat = (Dec.toRat ⟨1, 0⟩) / (Dec.toRat ⟨2, 0⟩) := by
  have h := C2_cell_binary_ops.1 ⟨123456, 3⟩ ⟨0, 2⟩
  have h2 := C2_cell_binary_ops.1 ⟨1, 0⟩ ⟨2, 0⟩
  exact ⟨h.2.2.2.2.2.2.1 rfl,
    h2.2.2.2.2.2.2.2.1 (by decide),
    h2.2.2.2.2.2.2.2.2 (by decide) ⟨1, by omega, by decide⟩⟩

/-! ## Identities of the decimal operations (C3) -/

theorem Dec.add_zero_scaled (d : Dec) : d.add ⟨0, 0⟩ = d := by
  simp [Dec.add]

theorem Dec.sub_zero_scaled (d : Dec) : d.sub ⟨0, 0⟩ = d := by
  simp [Dec.sub]

theorem Dec.mul_one_scaled (d : Dec) : d.mul ⟨1, 0⟩ = d := by
  simp [Dec.mul]

theorem Dec.div_one_scaled (d : Dec) : d.div ⟨1, 0⟩ = d := by
  have hdvd : ((1 : Int) * 10 ^ d.scale) ∣ d.mant * 10 ^ 0 * 10 ^ (d.scale - 0 + 0) :=
    ⟨d.mant, by simp [Nat.sub_zero]; ring⟩
  have hfind : ((List.range 29).find? fun j =>
      decide (((1 : Int) * 10 ^ d.scale) ∣ d.mant * 10 ^ 0 * 10 ^ (d.scale - 0 + j)))
      = some 0 := by
    rw [show (29 : Nat) = 28 + 1 from rfl, List.range_succ_eq_map,
      List.find?_cons_of_pos]
    exact decide_eq_true hdvd
  simp only [Dec.div]
  rw [hfind]
  show (⟨d.mant * 10 ^ 0 * 10 ^ (d.scale - 0 + 0) / ((1 : Int) * 10 ^ d.scale),
      d.scale - 0 + 0⟩ : Dec) = d
  have hmant : d.mant * 10 ^ 0 * 10 ^ (d.scale - 0 + 0) / ((1 : Int) * 10 ^ d.scale)
      = d.mant := by
    simp only [pow_zero, mul_one, one_mul, Nat.sub_zero, Nat.add_zero]
    exact Int.mul_ediv_cancel _ (pow_ne_zero _ (by norm_num))
  rw [hmant]
  simp

/-- One paired cell of a slice addition agrees with the cell rule. -/
theorem cell_add_pair (c : Cell) (ob : Option Cell) :
    (match ob with
     | some oc => c.add_value (oc.toDecimal.getD ⟨0, 0⟩)
     | none => c) = cellAdd c (ob.getD (.Number ⟨0, 0⟩)) := by
  match ob with
  | none =>
    cases c <;> simp [cellAdd, Cell.add_value, Dec.add_zero_scaled]
  | some (.Text s) =>
    cases c <;> simp [cellAdd, Cell.add_value, Cell.toDecimal, Dec.add_zero_scaled]
  | some (.Number v) =>
    cases c <;> simp [cellAdd, Cell.add_value, Cell.toDecimal]

theorem cell_sub_pair (c : Cell) (ob : Option Cell) :
    (match ob with
     | some oc => c.sub_value (oc.toDecimal.getD ⟨0, 0⟩)
     | none => c) = cellSub c (ob.getD (.Number ⟨0, 0⟩)) := by
  match ob with
  | none =>
    cases c <;> simp [cellSub, Cell.sub_value, Dec.sub_zero_scaled]
  | some (.Text s) =>
    cases c <;> simp [cellSub, Cell.sub_value, Cell.toDecimal, Dec.sub_zero_scaled]
  | some (.Number v) =>
    cases c <;> simp [cellSub, Cell.sub_value, Cell.toDecimal]

theorem cell_mul_pair (c : Cell) (ob : Option Cell) :
    (match ob with
     | some oc => c.mul_value (oc.toDecimal.getD ⟨1, 0⟩)
     | none => c) = cellMul c (ob.getD (.Number ⟨1, 0⟩)) := by
  match ob with
  | none =>
    cases c <;> simp [cellMul, Cell.mul_value, Dec.mul_one_scaled]
  | some (.Text s) =>
    cases c <;> simp [cellMul, Cell.mul_value, Cell.toDecimal, Dec.mul_one_scaled]
  | some (.Number v) =>
    cases c <;> simp [cellMul, Cell.mul_value, Cell.toDecimal]

theorem cell_div_pair (c : Cell) (ob : Option Cell) :
    (match ob with
     | some oc => c.div_value (oc.toDecimal.getD ⟨1, 0⟩)
     | none => c) = cellDiv c (ob.getD (.Number ⟨1, 0⟩)) := by
  match ob with
  | none =>
    cases c with
    | Text s => rfl
    | Number d =>
      show Cell.Number d = cellDiv (.Number d) (.Number ⟨1, 0⟩)
      rw [cellDiv, if_neg (by simp [Dec.isZero]), Dec.div_one_scaled]
  | some (.Text s) =>
    cases c with
    | Text s2 => rfl
    | Number d =>
      show (Cell.Number d).div_value ⟨1, 0⟩ = cellDiv (.Number d) (.Text s)
      rw [Cell.div_value, if_neg (by simp [Dec.isZero]), Dec.div_one_scaled]
      rfl
  | some (.Number v) =>
    cases c with
    | Text s2 => rfl
    | Number d => rfl

/-- C3: elementwise slice operators agree with the spec's description —
pairing by index, the operation's identity for a missing right cell,
the left slice's length, and the cell binary-operator rule on every
pair. -/
theorem C3_slice_elementwise (a b : Slice) :
    sliceAdd a b = sliceAddSpec a b ∧
    sliceSub a b = sliceSubSpec a b ∧
    sliceMul a b = sliceMulSpec a b ∧
    sliceDiv a b = sliceDivSpec a b ∧
    (sliceAdd a b).len = a.len ∧
    (sliceSub a b).len = a.len ∧
    (sliceMul a b).len = a.len ∧
    (sliceDiv a b).len = a.len := by
  refine ⟨?_, ?_, ?_, ?_, ?_, ?_, ?_, ?_⟩
  · have hfg : (fun i c => match b.cells.get? i with
        | some oc => Cell.add_value c (oc.toDecimal.getD ⟨0, 0⟩)
        | none => c)
        = fun i c => cellAdd c ((b.cells.get? i).getD (.Number ⟨0, 0⟩)) := by
      funext i c
      exact cell_add_pair c (b.cells.get? i)
    rw [sliceAdd, sliceAddSpec, hfg]
  · have hfg : (fun i c => match b.cells.get? i with
        | some oc => Cell.sub_value c (oc.toDecimal.getD ⟨0, 0⟩)
        | none => c)
        = fun i c => cellSub c ((b.cells.get? i).getD (.Number ⟨0, 0⟩)) := by
      funext i c
      exact cell_sub_pair c (b.cells.get? i)
    rw [sliceSub, sliceSubSpec, hfg]
  · have hfg : (fun i c => match b.cells.get? i with
        | some oc => Cell.mul_value c (oc.toDecimal.getD ⟨1, 0⟩)
        | none => c)
        = fun i c => cellMul c ((b.cells.get? i).getD (.Number ⟨1, 0⟩)) := by
      funext i c
      exact cell_mul_pair c (b.cells.get? i)
    rw [sliceMul, sliceMulSpec, hfg]
  · have hfg : (fun i c => match b.cells.get? i with
        | some oc => Cell.div_value c (oc.toDecimal.getD ⟨1, 0⟩)
        | none => c)
        = fun i c => cellDiv c ((b.cells.get? i).getD (.Number ⟨1, 0⟩)) := by
      funext i c
      exact cell_div_pair c (b.cells.get? i)
    rw [sliceDiv, sliceDivSpec, hfg]
  · simp [sliceAdd, Slice.len]
  · simp [sliceSub, Slice.len]
  · simp [sliceMul, Slice.len]
  · simp [sliceDiv, Slice.len]

/-! ## Comparison (C9) -/

theorem compareDec_spec (a b : Dec) :
    (a.compareDec b = .lt ↔ a.toRat < b.toRat) ∧
    (a.compareDec b = .eq ↔ a.toRat = b.toRat) ∧
    (a.compareDec b = .gt ↔ b.toRat < a.toRat) := by
  have hp1 : (0 : ℚ) < 10 ^ a.scale := by positivity
  have hp2 : (0 : ℚ) < 10 ^ b.scale := by positivity
  have hlt : a.toRat < b.toRat ↔ (a.mant * 10 ^ b.scale : Int) < b.mant * 10 ^ a.scale := by
    rw [Dec.toRat, Dec.toRat, div_lt_div_iff₀ hp1 hp2]
    constructor <;> intro h <;> exact_mod_cast h
  have heq : a.toRat = b.toRat ↔ (a.mant * 10 ^ b.scale : Int) = b.mant * 10 ^ a.scale := by
    rw [Dec.toRat, Dec.toRat, div_eq_div_iff (ne_of_gt hp1) (ne_of_gt hp2)]
    constructor <;> intro h <;> exact_mod_cast h
  have hgt : b.toRat < a.toRat ↔ (b.mant * 10 ^ a.scale : Int) < a.mant * 10 ^ b.scale := by
    rw [Dec.toRat, Dec.toRat, div_lt_div_iff₀ hp2 hp1]
    constructor <;> intro h <;> exact_mod_cast h
  simp only [Dec.compareDec]
  rcases lt_trichotomy (a.mant * 10 ^ b.scale : Int) (b.mant * 10 ^ a.scale) with h | h | h
  · rw [if_pos h]
    refine ⟨⟨fun _ => hlt.mpr h, fun _ => rfl⟩, ?_, ?_⟩
    · exact ⟨fun hc => Ordering.noConfusion hc, fun he => absurd (heq.mp he) (by omega)⟩
    · exact ⟨fun hc => Ordering.noConfusion hc, fun hg => absurd (hgt.mp hg) (by omega)⟩
  · rw [if_neg (by omega), if_pos h]
    refine ⟨?_, ⟨fun _ => heq.mpr h, fun _ => rfl⟩, ?_⟩
    · exact ⟨fun hc => Ordering.noConfusion hc, fun hl => absurd (hlt.mp hl) (by omega)⟩
    · exact ⟨fun hc => Ordering.noConfusion hc, fun hg => absurd (hgt.mp hg) (by omega)⟩
  · rw [if_neg (by omega), if_neg (by omega)]
    refine ⟨?_, ?_, ⟨fun _ => hgt.mpr h, fun _ => rfl⟩⟩
    · exact ⟨fun hc => Ordering.noConfusion hc, fun hl => absurd (hlt.mp hl) (by omega)⟩
    · exact ⟨fun hc => Ordering.noConfusion hc, fun he => absurd (heq.mp he) (by omega)⟩

theorem strCompare_eq_iff : ∀ (a b : List Char), strCompare a b = .eq ↔ a = b
  | [], [] => by simp [strCompare]
  | [], _ :: _ => by simp [strCompare]
  | _ :: _, [] => by simp [strCompare]
  | a :: as_, b :: bs => by
    rw [strCompare]
    by_cases h1 : a < b
    · rw [if_pos h1]
      refine ⟨fun hc => Ordering.noConfusion hc, fun he => ?_⟩
      injection he with hab _
      exact absurd (hab ▸ h1) (lt_irrefl b)
    · rw [if_neg h1]
      by_cases h2 : b < a
      · rw [if_pos h2]
        refine ⟨fun hc => Ordering.noConfusion hc, fun he => ?_⟩
        injection he with hab _
        exact absurd (hab ▸ h2) (lt_irrefl b)
      · rw [if_neg h2]
        have hab : a = b := le_antisymm (not_lt.mp h2) (not_lt.mp h1)
        rw [strCompare_eq_iff as_ bs]
        simp [hab]

/-- C9: comparison classifies the right operand first; numbers compare
by decimal value, text lexicographically, mismatched variants are
incomparable; equality is comparability with ordering `Equal`. -/
theorem C9_compare (l r : Cell) :
    (∀ s : String, l.compare_value_str s = l.compare_value (cellFromString s)) ∧
    (∀ v : Dec, l.compare_value_dec v = l.compare_value (.Number v)) ∧
    (∀ a b : Dec, l = .Number a → r = .Number b →
      ∃ o, l.compare_value r = some o ∧
        (o = .lt ↔ a.toRat < b.toRat) ∧
        (o = .eq ↔ a.toRat = b.toRat) ∧
        (o = .gt ↔ b.toRat < a.toRat)) ∧
    (∀ s1 s2 : String, l = .Text s1 → r = .Text s2 →
      l.compare_value r = some (strCompare s1.data s2.data) ∧
      (l.equal_value r = true ↔ s1 = s2)) ∧
    (l.isNumberCell = true → r.isTextCell = true → l.compare_value r = none) ∧
    (l.isTextCell = true → r.isNumberCell = true → l.compare_value r = none) ∧
    (l.equal_value r = true ↔ l.compare_value r = some .eq) := by
  refine ⟨fun s => rfl, fun v => rfl, ?_, ?_, ?_, ?_, ?_⟩
  · rintro a b rfl rfl
    exact ⟨a.compareDec b, rfl, (compareDec_spec a b).1, (compareDec_spec a b).2.1,
      (compareDec_spec a b).2.2⟩
  · rintro s1 s2 rfl rfl
    refine ⟨rfl, ?_⟩
    rw [Cell.equal_value]
    show (some (strCompare s1.data s2.data) == some Ordering.eq) = true ↔ s1 = s2
    have hbeq : ∀ x : Ordering, ((some x : Option Ordering) == some .eq) = true ↔ x = .eq := by
      intro x
      cases x <;> decide
    rw [hbeq, strCompare_eq_iff]
    constructor
    · intro h
      cases s1
      cases s2
      exact congrArg String.mk h
    · intro h
      rw [h]
  · intro h1 h2
    match l, r with
    | .Number a, .Text s => rfl
    | .Number a, .Number b => simp [Cell.isTextCell] at h2
    | .Text s, _ => simp [Cell.isNumberCell, Cell.isTextCell] at h1
  · intro h1 h2
    match l, r with
    | .Text s, .Number b => rfl
    | .Text s, .Text s2 => simp [Cell.isNumberCell, Cell.isTextCell] at h2
    | .Number a, _ => simp [Cell.isTextCell] at h1
  · rw [Cell.equal_value]
    cases hcv : l.compare_value r with
    | none => decide
    | some o => cases o <;> decide

/-- Witness for C9: ten is greater than five; a number and a text are
incomparable. -/
theorem C9_compare_witness :
    (Cell.Number ⟨10, 0⟩).compare_value (Cell.Number ⟨5, 0⟩) = some .gt ∧
    (Cell.Number ⟨10, 0⟩).compare_value (Cell.Text "abc") = none := by
  obtain ⟨o, ho, _, _, hgt⟩ := (C9_compare (Cell.Number ⟨10, 0⟩) (Cell.Number ⟨5, 0⟩)).2.2.1
    ⟨10, 0⟩ ⟨5, 0⟩ rfl rfl
  have hogt : o = .gt := hgt.mpr (by norm_num [Dec.toRat])
  exact ⟨hogt ▸ ho,
    (C9_compare (Cell.Number ⟨10, 0⟩) (Cell.Text "abc")).2.2.2.2.1 rfl rfl⟩

/-! ## CSV encoding (C4) -/

theorem mk_data (s : String) : String.mk s.data = s := by
  cases s
  rfl

theorem escapeQuotes_eq_flatMap (l : List Char) :
    escapeQuotes l = l.flatMap fun c => if c = '"' then ['"', '"'] else [c] := by
  induction l with
  | nil => rfl
  | cons c t ih =>
    by_cases hc : c = '"'
    · subst hc
      show '"' :: '"' :: escapeQuotes t = _
      rw [List.flatMap_cons, if_pos rfl, ih]
      rfl
    · rw [escapeQuotes.eq_def]
      split
      · rename_i heq
        injection heq
      · rename_i t2 h2
        injection h2 with h1 _
        exact absurd h1 hc
      · rename_i c2 t2 hno heq
        injection heq with h1 h3
        subst h1
        subst h3
        rw [List.flatMap_cons, if_neg hc, ih]
        rfl

theorem flatMap_esc_id {l : List Char} (h : ∀ c ∈ l, c ≠ '"') :
    (l.flatMap fun c => if c = '"' then ['"', '"'] else [c]) = l := by
  induction l with
  | nil => rfl
  | cons c t ih =>
    rw [List.flatMap_cons, if_neg (h c (List.mem_cons_self c t)),
      ih fun x hx => h x (List.mem_cons_of_mem c hx)]
    rfl

theorem csvField_eq_spec (s : String) : csvField s = csvFieldSpec s := by
  simp only [csvField, csvFieldSpec]
  by_cases hq : s.data.contains '"' = true
  · have hcond : (s.data.any fun c => c = ',' || c = '"' || c = '\r' || c = '\n') = true := by
      rw [List.any_eq_true]
      have hm : '"' ∈ s.data := by simpa using hq
      exact ⟨'"', hm, by simp⟩
    rw [hq, hcond]
    simp only [Bool.true_or, if_true]
    rw [escapeQuotes_eq_flatMap]
  · have hq' : s.data.contains '"' = false := by simpa using hq
    have hnq : ∀ c ∈ s.data, c ≠ '"' := by
      intro c hc hce
      subst hce
      rw [show s.data.contains '"' = true by simpa using hc] at hq'
      simp at hq'
    rw [hq']
    simp only [Bool.false_or, Bool.false_eq_true, if_false]
    by_cases he : (s.data.contains ',' || s.data.contains '\n' || s.data.contains '\r') = true
    · rw [he]
      have hcond : (s.data.any fun c => c = ',' || c = '"' || c = '\r' || c = '\n') = true := by
        rw [List.any_eq_true]
        rcases Bool.or_eq_true_iff.mp he with h1 | h1
        · rcases Bool.or_eq_true_iff.mp h1 with h2 | h2
          · exact ⟨',', by simpa using h2, by simp⟩
          · exact ⟨'\n', by simpa using h2, by simp⟩
        · exact ⟨'\r', by simpa using h1, by simp⟩
      rw [hcond]
      simp only [if_true]
      rw [flatMap_esc_id hnq, mk_data]
    · have he' : (s.data.contains ',' || s.data.contains '\n' || s.data.contains '\r') = false := by
        simpa using he
      rw [he']
      have hcond : ¬ ((s.data.any fun c => c = ',' || c = '"' || c = '\r' || c = '\n') = true) := by
        rw [List.any_eq_true]
        rintro ⟨c, hc, hp⟩
        simp only [Bool.or_eq_true, decide_eq_true_eq] at hp
        have hfalse : ∀ x : Char, x ∈ s.data → (x = ',' ∨ x = '\n' ∨ x = '\r') → False := by
          intro x hx hor
          have hcontains : s.data.contains x = true := by simpa using hx
          rcases hor with rfl | rfl | rfl
          · rw [hcontains] at he'
            simp at he'
          · rw [hcontains] at he'
            simp at he'
          · rw [hcontains] at he'
            simp at he'
        rcases hp with ((rfl | rfl) | rfl) | rfl
        · exact hfalse _ hc (Or.inl rfl)
        · exact hnq _ hc rfl
        · exact hfalse _ hc (Or.inr (Or.inr rfl))
        · exact hfalse _ hc (Or.inr (Or.inl rfl))
      rw [if_neg hcond]
      show "" ++ s ++ "" = s
      simp

theorem empty_append_str (s : String) : "" ++ s = s := by
  cases s
  rfl

theorem joinComma_cons_concat (x : String) (xs : List String) :
    joinComma (x :: xs) = x ++ concatAll (xs.map fun y => "," ++ y) := by
  induction xs generalizing x with
  | nil =>
    show x = x ++ ""
    rw [String.append_empty]
  | cons y ys ih =>
    show x ++ "," ++ joinComma (y :: ys) = x ++ concatAll ((y :: ys).map fun y => "," ++ y)
    rw [ih y, List.map_cons,
      show concatAll (("," ++ y) :: (ys.map fun y => "," ++ y))
        = ("," ++ y) ++ concatAll (ys.map fun y => "," ++ y) from rfl]
    simp [String.append_assoc]

theorem row_fold (cells : List Cell) (acc : String) :
    (cells.foldl (fun (a : String × Bool) c =>
      (a.1 ++ (if a.2 then "" else ",") ++ csvField c.toText, false)) (acc, false)).1
      = acc ++ concatAll (cells.map fun c => "," ++ csvField c.toText) := by
  induction cells generalizing acc with
  | nil =>
    show acc = acc ++ ""
    rw [String.append_empty]
  | cons c t ih =>
    show (t.foldl _ (acc ++ "," ++ csvField c.toText, false)).1 = _
    rw [ih, List.map_cons,
      show concatAll (("," ++ csvField c.toText) :: (t.map fun c => "," ++ csvField c.toText))
        = ("," ++ csvField c.toText) ++ concatAll (t.map fun c => "," ++ csvField c.toText)
        from rfl]
    simp [String.append_assoc]

theorem writeCsvRow_eq (cells : List Cell) :
    writeCsvRow cells = joinComma (cells.map fun c => csvFieldSpec c.toText) := by
  match cells with
  | [] => rfl
  | c :: t =>
    show (t.foldl _ ("" ++ "" ++ csvField c.toText, false)).1 = _
    rw [row_fold, List.map_cons, joinComma_cons_concat]
    have hmap : (t.map fun c => "," ++ csvField c.toText)
        = ((t.map fun c => csvFieldSpec c.toText).map fun y => "," ++ y) := by
      rw [List.map_map]
      exact List.map_congr_left fun cl _ => by rw [csvField_eq_spec]; rfl
    rw [hmap, csvField_eq_spec, empty_append_str, empty_append_str]

theorem table_fold (rows : List (List Cell)) (acc : String) :
    (rows.foldl (fun acc r => acc ++ writeCsvRow r ++ "\n") acc)
      = acc ++ concatAll (rows.map fun r => writeCsvRow r ++ "\n") := by
  induction rows generalizing acc with
  | nil =>
    show acc = acc ++ ""
    rw [String.append_empty]
  | cons r rs ih =>
    show (rs.foldl _ (acc ++ writeCsvRow r ++ "\n")) = _
    rw [ih, List.map_cons,
      show concatAll ((writeCsvRow r ++ "\n") :: (rs.map fun r => writeCsvRow r ++ "\n"))
        = (writeCsvRow r ++ "\n") ++ concatAll (rs.map fun r => writeCsvRow r ++ "\n")
        from rfl]
    simp [String.append_assoc]

/-- C4: the CSV writer emits the rows in row-major order, one row per
line terminated by a single line feed, cells joined by commas, each
field quoted with doubled inner quotes exactly when it contains a
comma, quote, carriage return or line feed. -/
theorem C4_write_csv (t : Table) : t.writeCsv = t.csvSpec := by
  rw [Table.writeCsv, Table.csvSpec, table_fold, empty_append_str]
  have hrows : (fun r => writeCsvRow r ++ "\n")
      = fun r : List Cell => joinComma (r.map fun c => csvFieldSpec c.toText) ++ "\n" :=
    funext fun r => by rw [writeCsvRow_eq]
  rw [hrows]

/-! ## Indexed access (C7) -/

theorem get_isSome_iff {α : Type} (l : List α) (n : Nat) :
    (l.get? n).isSome = true ↔ n < l.length := by
  induction l generalizing n with
  | nil => simp [List.get?]
  | cons a t ih =>
    cases n with
    | zero => simp [List.get?]
    | succ m => simpa [List.get?] using ih m

theorem nat_index_lt {rows cols r c : Nat} (hr : r < rows) (hc : c < cols) :
    r * cols + c < rows * cols :=
  calc r * cols + c < r * cols + cols := by omega
    _ = (r + 1) * cols := by ring
    _ ≤ rows * cols := Nat.mul_le_mul hr (le_refl cols)

/-- C7 counterexample: `Slice::cell` indexes the backing vector
directly, so an out-of-range index is an index-out-of-bounds fault (a
panic), not an absent result. -/
theorem C7_slice_cell_counterexample :
    Slice.cellAt ⟨[Cell.Text "a"]⟩ 5 = .error "index out of bounds" := rfl

/-- C7 (amended): on a well-formed table, `Table::cell`, `mut_cell`,
`row` and `col` are present exactly on in-range indices and absent —
never a fault — otherwise, and `Slice::mut_cell` likewise; but
`Slice::cell` faults (panics) on an out-of-range index instead of
reporting absence. -/
theorem C7_indexed_access (t : Table) (s : Slice) (r c i : Nat) (h : t.wf) :
    ((t.cellAt r c).isSome = true ↔ r < t.rows ∧ c < t.cols) ∧
    ((t.mutCellAt r c).isSome = true ↔ r < t.rows ∧ c < t.cols) ∧
    ((t.rowAt r).isSome = true ↔ r < t.rows) ∧
    ((t.colAt c).isSome = true ↔ c < t.cols) ∧
    ((s.mutCellAt i).isSome = true ↔ i < s.len) ∧
    ((∃ cl, s.cellAt i = .ok cl) ↔ i < s.len) := by
  have hL : t.data.length = t.rows * t.cols := h
  have hcell : (t.cellAt r c).isSome = true ↔ r < t.rows ∧ c < t.cols := by
    rw [Table.cellAt]
    by_cases hb : r < t.rows ∧ c < t.cols
    · rw [if_pos hb, get_isSome_iff, hL]
      exact ⟨fun _ => hb, fun _ => nat_index_lt hb.1 hb.2⟩
    · rw [if_neg hb]
      simp [hb]
  refine ⟨hcell, ?_, ?_, ?_, ?_, ?_⟩
  · rw [show t.mutCellAt r c = t.cellAt r c from rfl]
    exact hcell
  · rw [Table.rowAt]
    by_cases hr : r < t.rows
    · rw [if_pos hr]; simpa using hr
    · rw [if_neg hr]; simpa using hr
  · rw [Table.colAt]
    by_cases hc : c < t.cols
    · rw [if_pos hc]; simpa using hc
    · rw [if_neg hc]; simpa using hc
  · rw [Slice.mutCellAt, Slice.len]
    exact get_isSome_iff s.cells i
  · rw [Slice.len]
    cases hg : s.cells.get? i with
    | some cl =>
      constructor
      · intro _
        exact (get_isSome_iff s.cells i).mp (by rw [hg]; rfl)
      · intro _
        refine ⟨cl, ?_⟩
        rw [Slice.cellAt, hg]
    | none =>
      constructor
      · rintro ⟨cl, hcl⟩
        rw [Slice.cellAt, hg] at hcl
        cases hcl
      · intro hlt
        have := (get_isSome_iff s.cells i).mpr hlt
        rw [hg] at this
        cases this

theorem C7_indexed_access_witness :
    ((Table.cellAt ⟨2, 3, List.replicate 6 (Cell.Text "a")⟩ 1 2).isSome = true ↔
      1 < 2 ∧ 2 < 3) ∧
    ((Table.mutCellAt ⟨2, 3, List.replicate 6 (Cell.Text "a")⟩ 1 2).isSome = true ↔
      1 < 2 ∧ 2 < 3) ∧
    ((Table.rowAt ⟨2, 3, List.replicate 6 (Cell.Text "a")⟩ 1).isSome = true ↔ 1 < 2) ∧
    ((Table.colAt ⟨2, 3, List.replicate 6 (Cell.Text "a")⟩ 2).isSome = true ↔ 2 < 3) ∧
    ((Slice.mutCellAt ⟨[Cell.Text "x"]⟩ 0).isSome = true ↔
      0 < Slice.len ⟨[Cell.Text "x"]⟩) ∧
    ((∃ cl, Slice.cellAt ⟨[Cell.Text "x"]⟩ 0 = .ok cl) ↔
      0 < Slice.len ⟨[Cell.Text "x"]⟩) :=
  C7_indexed_access ⟨2, 3, List.replicate 6 (Cell.Text "a")⟩ ⟨[Cell.Text "x"]⟩ 1 2 0
    (by rfl)

/-! ## Rectangularity and mismatched inserts (C6) -/

theorem length_flatMap_const {α β : Type} (l : List α) (f : α → List β) (k : Nat)
    (h : ∀ a ∈ l, (f a).length = k) : (l.flatMap f).length = l.length * k := by
  induction l with
  | nil => simp
  | cons a t ih =>
    rw [List.flatMap_cons, List.length_append, h a (List.mem_cons_self a t),
      ih fun a ha => h a (List.mem_cons_of_mem _ ha), List.length_cons]
    ring

theorem rowsOf_length (t : Table) : t.rowsOf.length = t.rows := by
  rw [Table.rowsOf, List.length_map, List.length_range]

theorem rowsOf_mem_length (t : Table) (hw : t.wf) :
    ∀ rw ∈ t.rowsOf, rw.length = t.cols := by
  intro rw hrw
  rw [Table.rowsOf] at hrw
  obtain ⟨i, hi, rfl⟩ := List.mem_map.mp hrw
  have hi' : i < t.rows := List.mem_range.mp hi
  have hL : t.data.length = t.rows * t.cols := hw
  rw [List.length_take, List.length_drop, hL]
  have h1 : (i + 1) * t.cols ≤ t.rows * t.cols := Nat.mul_le_mul hi' (le_refl _)
  rw [Nat.succ_mul] at h1
  omega

/-- C6 counterexample: inserting a two-cell row into a 2×3 grid is a
length mismatch, which the grid dependency turns into a panic — the
insert faults instead of producing an irregular grid. -/
theorem C6_irregular_counterexample :
    Table.insert_row ⟨2, 3, List.replicate 6 (Cell.Text "a")⟩ 1
      [Cell.Text "x", Cell.Text "y"] = none := by
  decide

/-- C6 (amended): inserting a row (column) whose length differs from
the column (row) count of a nonempty well-formed table faults — the
grid dependency panics — and replacing does too; consequently every
insert that does succeed preserves rectangularity. -/
theorem C6_mismatched_insert (t : Table) (idx : Nat) (rw cl : List Cell)
    (hw : t.wf) :
    (t.rows ≠ 0 → rw.length ≠ t.cols → t.insert_row idx rw = none) ∧
    (t.cols ≠ 0 → cl.length ≠ t.rows → t.insert_col idx cl = none) ∧
    (idx < t.rows → 2 ≤ t.rows → rw.length ≠ t.cols → t.replace_row idx rw = none) ∧
    (idx < t.cols → 2 ≤ t.cols → cl.length ≠ t.rows → t.replace_col idx cl = none) ∧
    (∀ t', t.insert_row idx rw = some t' → t'.wf) ∧
    (∀ t', t.insert_col idx cl = some t' → t'.wf) := by
  have hL : t.data.length = t.rows * t.cols := hw
  refine ⟨?_, ?_, ?_, ?_, ?_, ?_⟩
  · intro h0 hlen
    rw [Table.insert_row]
    by_cases h1 : idx > t.rows
    · rw [if_pos h1]
    · rw [if_neg h1, if_neg h0, if_neg hlen]
  · intro h0 hlen
    rw [Table.insert_col]
    by_cases h1 : idx > t.cols
    · rw [if_pos h1]
    · rw [if_neg h1, if_neg h0, if_neg hlen]
  · intro hidx h2 hlen
    have hrem : t.remove_row idx = some (⟨(t.data.drop (idx * t.cols)).take t.cols⟩,
        ⟨t.rows - 1, t.cols,
          t.data.take (idx * t.cols) ++ t.data.drop ((idx + 1) * t.cols)⟩) := by
      rw [Table.remove_row, if_pos hidx]
    have hins : Table.insert_row
        ⟨t.rows - 1, t.cols,
          t.data.take (idx * t.cols) ++ t.data.drop ((idx + 1) * t.cols)⟩ idx rw
        = none := by
      simp only [Table.insert_row]
      rw [if_neg (by omega : ¬ idx > t.rows - 1),
        if_neg (by omega : ¬ t.rows - 1 = 0), if_neg hlen]
    rw [Table.replace_row, hrem]
    simp only [hins, Option.map_none']
  · intro hidx h2 hlen
    have hrem : t.remove_col idx = some
        (⟨(List.range t.rows).filterMap fun r => t.data.get? (r * t.cols + idx)⟩,
          ⟨t.rows, t.cols - 1,
            t.rowsOf.flatMap fun rw => rw.take idx ++ rw.drop (idx + 1)⟩) := by
      rw [Table.remove_col, if_pos hidx]
    have hins : Table.insert_col
        ⟨t.rows, t.cols - 1,
          t.rowsOf.flatMap fun rw => rw.take idx ++ rw.drop (idx + 1)⟩ idx cl
        = none := by
      simp only [Table.insert_col]
      rw [if_neg (by omega : ¬ idx > t.cols - 1),
        if_neg (by omega : ¬ t.cols - 1 = 0), if_neg hlen]
    rw [Table.replace_col, hrem]
    simp only [hins, Option.map_none']
  · intro t' ht'
    rw [Table.insert_row] at ht'
    by_cases h1 : idx > t.rows
    · rw [if_pos h1] at ht'
      cases ht'
    · rw [if_neg h1] at ht'
      by_cases h2 : t.rows = 0
      · rw [if_pos h2] at ht'
        have he := Option.some.inj ht'
        subst he
        show rw.length = 1 * rw.length
        rw [Nat.one_mul]
      · rw [if_neg h2] at ht'
        by_cases h3 : rw.length = t.cols
        · rw [if_pos h3] at ht'
          have he := Option.some.inj ht'
          subst he
          show (t.data.take (idx * t.cols) ++ rw ++ t.data.drop (idx * t.cols)).length
            = (t.rows + 1) * t.cols
          simp only [List.length_append, List.length_take, List.length_drop]
          have hle : idx * t.cols ≤ t.rows * t.cols :=
            Nat.mul_le_mul (by omega) (le_refl _)
          rw [Nat.succ_mul]
          omega
        · rw [if_neg h3] at ht'
          cases ht'
  · intro t' ht'
    rw [Table.insert_col] at ht'
    by_cases h1 : idx > t.cols
    · rw [if_pos h1] at ht'
      cases ht'
    · rw [if_neg h1] at ht'
      by_cases h2 : t.cols = 0
      · rw [if_pos h2] at ht'
        have he := Option.some.inj ht'
        subst he
        show cl.length = cl.length * 1
        rw [Nat.mul_one]
      · rw [if_neg h2] at ht'
        by_cases h3 : cl.length = t.rows
        · rw [if_pos h3] at ht'
          have he := Option.some.inj ht'
          subst he
          show ((t.rowsOf.zip cl).flatMap fun p => p.1.take idx ++ p.2 :: p.1.drop idx).length
            = t.rows * (t.cols + 1)
          have hall : ∀ p ∈ t.rowsOf.zip cl,
              ((fun p : List Cell × Cell => p.1.take idx ++ p.2 :: p.1.drop idx) p).length
                = t.cols + 1 := by
            rintro ⟨a, b⟩ hp
            have ha : a ∈ t.rowsOf := (List.of_mem_zip hp).1
            have halen : a.length = t.cols := rowsOf_mem_length t hw a ha
            simp only [List.length_append, List.length_take, List.length_cons,
              List.length_drop, halen]
            omega
          rw [length_flatMap_const _ _ (t.cols + 1) hall, List.length_zip,
            rowsOf_length, h3, Nat.min_self]
        · rw [if_neg h3] at ht'
          cases ht'

theorem C6_mismatched_insert_witness :
    Table.insert_row ⟨2, 3, List.replicate 6 (Cell.Text "a")⟩ 0 [Cell.Text "x"] = none ∧
    Table.insert_col ⟨2, 3, List.replicate 6 (Cell.Text "a")⟩ 0 [Cell.Text "x"] = none :=
  ⟨(C6_mismatched_insert ⟨2, 3, List.replicate 6 (Cell.Text "a")⟩ 0 [Cell.Text "x"]
      [Cell.Text "x"] (by rfl)).1 (by decide) (by decide),
   (C6_mismatched_insert ⟨2, 3, List.replicate 6 (Cell.Text "a")⟩ 0 [Cell.Text "x"]
      [Cell.Text "x"] (by rfl)).2.1 (by decide) (by decide)⟩

/-! ## JSON round trip (C5) -/

/-- C5: decoding the documented table text and re-encoding it is the
identity; the encoder always emits each cell's string representation as
a JSON string (never a native number); and decoding classifies each
string literal exactly as the classifier does. -/
theorem C5_json_round_trip :
    ((tableFromString "[[\x22a\x22,\x22b\x22,\x22c\x22],[\x221\x22,\x222\x22,\x223\x22]]").map
        Table.toText
      = some "[[\x22a\x22,\x22b\x22,\x22c\x22],[\x221\x22,\x222\x22,\x223\x22]]") ∧
    (∀ t : Table,
      t.toJson = .arr (t.rowsOf.map fun r => .arr (r.map fun c => .str c.toText))) ∧
    (∀ s : String, cellFromJson (.str s) = cellFromString s) :=
  ⟨by decide, fun _ => rfl, fun _ => rfl⟩

end Tablefi
